import Mathlib

/-!
# LyricFlow — verification of the timestamp / repair / formatting pipeline

Shallow embedding of the pure core of the `lyricflow` repository:

* `normalizeTimestamp`, `timestampToSeconds`, `tryRepairJson` and the
  segment post-processing inside `transcribeAudio`
  (`src/services/geminiService.ts`);
* the variant `normalizeTimestamp` that replaces a comma by a dot before
  stripping (`src/unnamed/part_001`), called `normalizeTimestampV2` here;
* the format emitters `formatToSRTTime`, `formatToTTMLTime`,
  `formatToLRCTime`, `generateSRT`, `generateLRC`, `generateTTML` and
  `hasCJK` (`src/utils/timeUtils.ts`).

Strings are modelled as `List Char` (with `String` wrappers at the API
boundary), JavaScript numbers as `ℚ` — every value manipulated by the
embedded code is produced by integer arithmetic or decimal-literal
parsing, so rationals represent them exactly; `NaN` is modelled by
`Option` where it can arise (`parseInt`/`parseFloat` failure).
-/

namespace LyricFlow

/-! ## Character and JS-string primitives -/

/-- ASCII digit test; the `\d` class of the JS regexes used by the source. -/
def isDigitC (c : Char) : Bool := 48 ≤ c.toNat && c.toNat ≤ 57

/-- Numeric value of an ASCII digit character. -/
def dval (c : Char) : ℕ := c.toNat - 48

/-- Digit character for a value `0..9`. -/
def digitChar (d : ℕ) : Char := Char.ofNat (48 + d)

/-- Whitespace for JS `String.prototype.trim` (the common code points;
the exotic Unicode space characters never matter here because every use
of `trim` in the source is followed by a filter that removes everything
but digits, `:` and `.`, and the first-comma position `replace` targets
is unaffected by surrounding whitespace). -/
def isWSC (c : Char) : Bool :=
  c.toNat = 32 || (9 ≤ c.toNat && c.toNat ≤ 13) || c.toNat = 160

/-- JS `s.trim()`. -/
def jsTrim (l : List Char) : List Char :=
  ((l.dropWhile isWSC).reverse.dropWhile isWSC).reverse

/-- JS `s.split(sep)` for a single-character separator (keeps empty pieces,
like JS: `"a:b:".split(':') = ["a","b",""]`, `"".split(':') = [""]`). -/
def splitCh (sep : Char) : List Char → List (List Char)
  | [] => [[]]
  | c :: cs =>
    if c = sep then [] :: splitCh sep cs
    else
      match splitCh sep cs with
      | [] => [[c]]
      | h :: t => (c :: h) :: t

/-- JS `s.includes(c)` for a single character. -/
def listContains (c : Char) (l : List Char) : Bool := l.any (· = c)

/-- JS `s.replace(a, b)` for single characters: first occurrence only. -/
def replaceFirst (a b : Char) : List Char → List Char
  | [] => []
  | c :: cs => if c = a then b :: cs else c :: replaceFirst a b cs

/-- JS `s.padStart(n, c)`. -/
def padStart (n : ℕ) (c : Char) (l : List Char) : List Char :=
  List.replicate (n - l.length) c ++ l

/-- JS `s.padEnd(n, c)`. -/
def padEnd (n : ℕ) (c : Char) (l : List Char) : List Char :=
  l ++ List.replicate (n - l.length) c

/-! ## Decimal rendering and parsing of JS numbers -/

/-- Value of a digit string, most significant first. -/
def digitsVal (l : List Char) : ℕ := l.foldl (fun a c => 10 * a + dval c) 0

/-- Fuelled decimal rendering (fuel keeps the recursion structural so
that the kernel can evaluate it; `decNat` supplies enough fuel). -/
def decNatGo : ℕ → ℕ → List Char
  | 0, _ => []
  | fuel + 1, n =>
    if n < 10 then [digitChar n]
    else decNatGo fuel (n / 10) ++ [digitChar (n % 10)]

/-- JS `String(n)` for a non-negative integer. -/
def decNat (n : ℕ) : List Char := decNatGo (n + 1) n

/-- JS `String(i)` for an integer. -/
def intToStr (i : ℤ) : List Char :=
  if i < 0 then '-' :: decNat (-i).toNat else decNat i.toNat

/-- Digit-prefix part of JS `parseInt(s, 10)`. -/
def parseIntCore (l : List Char) : Option ℕ :=
  let d := l.takeWhile isDigitC
  if d.isEmpty then none else some (digitsVal d)

/-- JS `parseInt(s, 10)`: skip whitespace, optional sign, longest digit
prefix; `NaN` (modelled `none`) when no digits. -/
def parseIntJS (l : List Char) : Option ℤ :=
  let t := l.dropWhile isWSC
  if t.headD ' ' = '-' then (parseIntCore t.tail).map (fun n => -(n : ℤ))
  else if t.headD ' ' = '+' then (parseIntCore t.tail).map (fun n => (n : ℤ))
  else (parseIntCore t).map (fun n => (n : ℤ))

/-- Unsigned part of JS `parseFloat`: an integer digit run, optionally a
dot and a fractional digit run; `NaN` (`none`) when both runs are empty. -/
def pfCore (sgn : ℚ) (t : List Char) : Option ℚ :=
  if (t.dropWhile isDigitC).headD ' ' = '.' then
    if (t.takeWhile isDigitC).isEmpty &&
        ((t.dropWhile isDigitC).tail.takeWhile isDigitC).isEmpty then none
    else
      some (sgn * ((digitsVal (t.takeWhile isDigitC) : ℚ) +
        (digitsVal ((t.dropWhile isDigitC).tail.takeWhile isDigitC) : ℚ) /
          (10 : ℚ) ^ ((t.dropWhile isDigitC).tail.takeWhile isDigitC).length))
  else if (t.takeWhile isDigitC).isEmpty then none
  else some (sgn * (digitsVal (t.takeWhile isDigitC) : ℚ))

/-- JS `parseFloat(s)` restricted to plain decimal literals
`[+-]?digits[.digits]`.  Exponent forms cannot reach the call sites: every
`parseFloat` in the embedded code receives either a string filtered down
to digits, `:` and `.`, or a rendered `HH:MM:SS.mmm` field. -/
def parseFloatJS (l : List Char) : Option ℚ :=
  let t := l.dropWhile isWSC
  if t.headD ' ' = '-' then pfCore (-1) t.tail
  else if t.headD ' ' = '+' then pfCore 1 t.tail
  else pfCore 1 t

/-! ## JS float operations (on ℚ) -/

/-- JS truncation toward zero (used by the JS `%` operator). -/
def jsTrunc (q : ℚ) : ℤ := if 0 ≤ q then ⌊q⌋ else -⌊-q⌋

/-- JS `a % b` (remainder with truncated division). -/
def jsMod (a b : ℚ) : ℚ := a - b * (jsTrunc (a / b) : ℚ)

/-- JS `Math.floor`. -/
def jsFloor (q : ℚ) : ℤ := ⌊q⌋

/-- JS `Math.round` (half-up, toward +∞). -/
def jsRound (q : ℚ) : ℤ := ⌊q + 1 / 2⌋

/-! ## normalizeTimestamp (src/services/geminiService.ts:49-97) -/

/-- The character filter `replace(/[^\d:.]/g, '')`. -/
def stripNoise (l : List Char) : List Char :=
  l.filter fun c => isDigitC c || c = ':' || c = '.'

/-- The template
`${String(h).padStart(2,'0')}:${String(m).padStart(2,'0')}:${String(s).padStart(2,'0')}.${String(ms).padStart(3,'0')}`. -/
def fmtHMS (h m s ms : ℤ) : List Char :=
  padStart 2 '0' (intToStr h) ++ ':' :: padStart 2 '0' (intToStr m) ++
    ':' :: padStart 2 '0' (intToStr s) ++ '.' :: padStart 3 '0' (intToStr ms)

/-- Millisecond field of the `M:S` branches: `if (secParts[1]) { msStr =
secParts[1].substring(0,3).padEnd(3,'0'); ms = parseInt(msStr, 10) }`.
The `getD 0` can never fire at the call sites: `secParts[1]` is a
non-empty run of digits there (see `parseIntJS_digits`). -/
def msFromSecParts (secParts : List (List Char)) : ℤ :=
  match secParts with
  | _ :: s1 :: _ =>
    if s1.isEmpty then 0
    else (parseIntJS (padEnd 3 '0' (s1.take 3))).getD 0
  | _ => 0

/-- The `parts.length === 3 / 2 / 1` ladder; any other length leaves all
four components `0`. -/
def partsToHMS (parts : List (List Char)) : ℤ × ℤ × ℤ × ℤ :=
  match parts with
  | [p0, p1, p2] =>
    ((parseIntJS p0).getD 0, (parseIntJS p1).getD 0,
     (parseIntJS ((splitCh '.' p2).headD [])).getD 0,
     msFromSecParts (splitCh '.' p2))
  | [p0, p1] =>
    (0, (parseIntJS p0).getD 0,
     (parseIntJS ((splitCh '.' p1).headD [])).getD 0,
     msFromSecParts (splitCh '.' p1))
  | [p0] =>
    (0, 0, (parseIntJS ((splitCh '.' p0).headD [])).getD 0,
     msFromSecParts (splitCh '.' p0))
  | _ => (0, 0, 0, 0)

/-- Shared tail of both `normalizeTimestamp` variants, starting from the
cleaned string: the raw-seconds branch (guarded by
`!clean.includes(':') && /^[\d.]+$/.test(clean)` and `!isNaN`), falling
through to the `split(':')` ladder. -/
def normalizeFromClean (clean : List Char) : List Char :=
  let bare : Option (List Char) :=
    if !(listContains ':' clean) && !clean.isEmpty &&
        clean.all (fun c => isDigitC c || c = '.') then
      match parseFloatJS clean with
      | some total =>
        some (fmtHMS (jsFloor (total / 3600)) (jsFloor (jsMod total 3600 / 60))
          (jsFloor (jsMod total 60)) (jsRound (jsMod total 1 * 1000)))
      | none => none
    else none
  match bare with
  | some r => r
  | none =>
    let (h, m, s, ms) := partsToHMS (splitCh ':' clean)
    fmtHMS h m s ms

/-- `normalizeTimestamp` from `src/services/geminiService.ts:49-97`
(no comma handling: `clean = ts.trim().replace(/[^\d:.]/g, '')`). -/
def normalizeTimestampL (ts : List Char) : List Char :=
  if ts.isEmpty then "00:00:00.000".data
  else normalizeFromClean (stripNoise (jsTrim ts))

/-- `normalizeTimestamp` from `src/unnamed/part_001:60-111`: identical
except `clean = ts.trim().replace(',', '.').replace(/[^\d:.]/g, '')`
(the first comma becomes a decimal point before stripping). -/
def normalizeTimestampV2L (ts : List Char) : List Char :=
  if ts.isEmpty then "00:00:00.000".data
  else normalizeFromClean (stripNoise (replaceFirst ',' '.' (jsTrim ts)))

def normalizeTimestamp (ts : String) : String := ⟨normalizeTimestampL ts.data⟩

def normalizeTimestampV2 (ts : String) : String := ⟨normalizeTimestampV2L ts.data⟩

/-! ## timestampToSeconds (src/services/geminiService.ts:151-160) -/

/-- `timestampToSeconds`: split on `:`; with exactly three parts return
`parseFloat(h)*3600 + parseFloat(m)*60 + parseFloat(s)` (`none` models a
`NaN` result), otherwise `0`. -/
def timestampToSecondsL (ts : List Char) : Option ℚ :=
  match splitCh ':' ts with
  | [p0, p1, p2] => do
    let h ← parseFloatJS p0
    let m ← parseFloatJS p1
    let s ← parseFloatJS p2
    pure (h * 3600 + m * 60 + s)
  | _ => some 0

def timestampToSeconds (ts : String) : Option ℚ := timestampToSecondsL ts.data

/-- The JS value `timestampToSeconds(ts)` as a number.  On every string
this pipeline feeds it (an output of `normalizeTimestamp`) the parse
succeeds, so the `Option` default is never exercised
(`timestampToSeconds_normalize_isSome` below). -/
def timestampToSecondsNum (ts : String) : ℚ := (timestampToSeconds ts).getD 0

/-! ## Data model (types.ts) and the post-processing inside
`transcribeAudio` (src/services/geminiService.ts:265-285) -/

/-- A word-level sub-segment.  Source field `end` is a Lean keyword and
is called `stop` here. -/
structure SubtitleWord where
  start : ℚ
  stop : ℚ
  text : String
deriving DecidableEq

/-- A canonical segment.  Source field `end` is called `stop` here. -/
structure SubtitleSegment where
  start : ℚ
  stop : ℚ
  text : String
  words : List SubtitleWord
deriving DecidableEq

/-- A raw word record from the model's JSON. -/
structure RawWord where
  startTime : Option String
  endTime : Option String
  text : String

/-- A raw segment record from the model's JSON.  `startAlt`/`endAlt`
model the alternative JSON keys `"start"`/`"end"` of the flat schema;
`none` means the key is absent (JS `undefined`). -/
structure RawSegment where
  startTime : Option String
  endTime : Option String
  startAlt : Option String
  endAlt : Option String
  text : String
  words : Option (List RawWord)

/-- `normalizeTimestamp(seg.startTime)` where the field may be absent:
`undefined` hits the same `if (!ts)` early return as the empty string. -/
def normalizeTimestampField : Option String → String
  | none => "00:00:00.000"
  | some s => normalizeTimestamp s

/-- Word mapping inside `transcribeAudio`:
`{ start: timestampToSeconds(normalizeTimestamp(w.startTime)), ... }`. -/
def buildWord (w : RawWord) : SubtitleWord :=
  { start := timestampToSecondsNum (normalizeTimestampField w.startTime)
    stop := timestampToSecondsNum (normalizeTimestampField w.endTime)
    text := w.text }

/-- Comparator `(a, b) => a.start - b.start` of the two `.sort` calls,
as the ordering test of a stable merge sort (JS `Array.prototype.sort`
is stable). -/
def leStart {α : Type} (start : α → ℚ) (a b : α) : Bool := start a ≤ start b

/-- Segment mapping inside `transcribeAudio`: note that only the keys
`startTime`/`endTime` are consulted — `startAlt`/`endAlt` (JSON keys
`"start"`/`"end"`) are never read. -/
def buildSegment (seg : RawSegment) : SubtitleSegment :=
  let startStr := normalizeTimestampField seg.startTime
  let endStr := normalizeTimestampField seg.endTime
  { start := timestampToSecondsNum startStr
    stop := timestampToSecondsNum endStr
    text := seg.text
    words :=
      match seg.words with
      | some ws => (ws.map buildWord).mergeSort (leStart SubtitleWord.start)
      | none => [] }

/-- `rawData.segments.map(...).sort((a, b) => a.start - b.start)`. -/
def buildSegments (segs : List RawSegment) : List SubtitleSegment :=
  (segs.map buildSegment).mergeSort (leStart SubtitleSegment.start)

/-! ## Format emitters (src/utils/timeUtils.ts) -/

/-- The `pad` helper: `num.toString().padStart(size, '0')`. -/
def pad (num : ℕ) (size : ℕ) : List Char := padStart size '0' (decNat num)

/-- `formatToSRTTime` (HH:MM:SS,mmm).  The source's `isNaN` guard has no
image in the ℚ model; after the `seconds < 0` guard all values are
non-negative, so the JS `Math.floor`/`%` chain is exactly ℕ division and
modulus on `round(seconds*1000)`. -/
def formatToSRTTimeL (seconds : ℚ) : List Char :=
  if seconds < 0 then "00:00:00,000".data
  else
    let totalMs := (jsRound (seconds * 1000)).toNat
    let ms := totalMs % 1000
    let totalSeconds := totalMs / 1000
    let sec := totalSeconds % 60
    let totalMinutes := totalSeconds / 60
    let min := totalMinutes % 60
    let hour := totalMinutes / 60
    pad hour 2 ++ ':' :: pad min 2 ++ ':' :: pad sec 2 ++ ',' :: pad ms 3

def formatToSRTTime (seconds : ℚ) : String := ⟨formatToSRTTimeL seconds⟩

/-- `formatToTTMLTime` (HH:MM:SS.mmm): identical arithmetic, dot
separator. -/
def formatToTTMLTimeL (seconds : ℚ) : List Char :=
  if seconds < 0 then "00:00:00.000".data
  else
    let totalMs := (jsRound (seconds * 1000)).toNat
    let ms := totalMs % 1000
    let totalSeconds := totalMs / 1000
    let sec := totalSeconds % 60
    let totalMinutes := totalSeconds / 60
    let min := totalMinutes % 60
    let hour := totalMinutes / 60
    pad hour 2 ++ ':' :: pad min 2 ++ ':' :: pad sec 2 ++ '.' :: pad ms 3

def formatToTTMLTime (seconds : ℚ) : String := ⟨formatToTTMLTimeL seconds⟩

/-- `formatToLRCTime` (`[MM:SS.cc]`, centiseconds). -/
def formatToLRCTimeL (seconds : ℚ) : List Char :=
  if seconds < 0 then "[00:00.00]".data
  else
    let totalCentiseconds := (jsRound (seconds * 100)).toNat
    let centis := totalCentiseconds % 100
    let totalSeconds := totalCentiseconds / 100
    let sec := totalSeconds % 60
    let min := totalSeconds / 60
    '[' :: (pad min 2 ++ ':' :: pad sec 2 ++ '.' :: pad centis 2) ++ [']']

def formatToLRCTime (seconds : ℚ) : String := ⟨formatToLRCTimeL seconds⟩

/-- `generateSRT`: `${index+1}\n${start} --> ${end}\n${text}\n` joined
with `\n`. -/
def generateSRT (segments : List SubtitleSegment) : String :=
  String.intercalate "\n" <| segments.enum.map fun p =>
    String.mk (decNat (p.1 + 1)) ++ "\n" ++ formatToSRTTime p.2.start ++
      " --> " ++ formatToSRTTime p.2.stop ++ "\n" ++ p.2.text ++ "\n"

/-- LRC metadata record.  Source field `by` is a Lean keyword and is
called `byAttr` here. -/
structure LRCMetadata where
  title : Option String := none
  artist : Option String := none
  album : Option String := none
  byAttr : Option String := none

/-- The lyric line `${formatToLRCTime(seg.start)}${seg.text}`. -/
def lrcLyricLine (seg : SubtitleSegment) : String :=
  formatToLRCTime seg.start ++ seg.text

/-- A timestamp-only clear-marker line. -/
def lrcClearLine (t : ℚ) : String := formatToLRCTime t

/-- The segment loop of `generateLRC`: a lyric line per segment; between
a segment and its successor a clear line at `end + 1.0` when the gap
exceeds `4.0`; after the final segment a clear line at `end + 4.0` only
when it fits inside a known positive `audioDuration`. -/
def lrcBody (audioDuration : ℚ) : List SubtitleSegment → List String
  | [] => []
  | seg :: rest =>
    lrcLyricLine seg ::
      ((match rest with
        | next :: _ =>
          if next.start - seg.stop > 4 then [lrcClearLine (seg.stop + 1)] else []
        | [] =>
          if audioDuration > 0 ∧ seg.stop + 4 ≤ audioDuration then
            [lrcClearLine (seg.stop + 4)]
          else []) ++ lrcBody audioDuration rest)

/-- Header lines of `generateLRC`; `metadata.by || 'LyricFlow AI'`
(JS truthiness: an empty string also falls back). -/
def lrcHeaders (metadata : LRCMetadata) : List String :=
  (match metadata.title with
   | some t => if t.isEmpty then [] else ["[ti:" ++ t ++ "]"]
   | none => []) ++
  (match metadata.artist with
   | some t => if t.isEmpty then [] else ["[ar:" ++ t ++ "]"]
   | none => []) ++
  (match metadata.album with
   | some t => if t.isEmpty then [] else ["[al:" ++ t ++ "]"]
   | none => []) ++
  ["[by:" ++
    (match metadata.byAttr with
     | some b => if b.isEmpty then "LyricFlow AI" else b
     | none => "LyricFlow AI") ++ "]"]

/-- The full line list of `generateLRC`. -/
def generateLRCLines (segments : List SubtitleSegment) (metadata : LRCMetadata)
    (audioDuration : ℚ) : List String :=
  lrcHeaders metadata ++ lrcBody audioDuration segments

/-- `generateLRC` (`audioDuration` defaults to `0` as in the source). -/
def generateLRC (segments : List SubtitleSegment) (metadata : LRCMetadata)
    (audioDuration : ℚ := 0) : String :=
  String.intercalate "\n" (generateLRCLines segments metadata audioDuration)

/-! ## TTML (src/utils/timeUtils.ts:111-177) -/

/-- The apostrophe character (spelled via its code point). -/
def apos : Char := Char.ofNat 39

/-- One global single-character replacement (JS `replace(/c/g, rep)`). -/
def replaceAllCh (c : Char) (rep : List Char) : List Char → List Char
  | [] => []
  | x :: xs => (if x = c then rep else [x]) ++ replaceAllCh c rep xs

/-- The XML `escape` helper: `& < > " '` in that order. -/
def escapeXMLL (l : List Char) : List Char :=
  replaceAllCh apos "&apos;".data
    (replaceAllCh '"' "&quot;".data
      (replaceAllCh '>' "&gt;".data
        (replaceAllCh '<' "&lt;".data
          (replaceAllCh '&' "&amp;".data l))))

def escapeXML (s : String) : String := ⟨escapeXMLL s.data⟩

/-- `hasCJK`: regex
`[぀-ヿ㐀-䶿一-鿿豈-﫿ｦ-ﾟ]`.
(The comment in the source claims Hangul is covered; no Hangul block is
in the character class.) -/
def hasCJK (text : String) : Bool :=
  text.data.any fun c =>
    (0x3040 ≤ c.toNat && c.toNat ≤ 0x30ff) ||
    (0x3400 ≤ c.toNat && c.toNat ≤ 0x4dbf) ||
    (0x4e00 ≤ c.toNat && c.toNat ≤ 0x9fff) ||
    (0xf900 ≤ c.toNat && c.toNat ≤ 0xfaff) ||
    (0xff66 ≤ c.toNat && c.toNat ≤ 0xff9f)

/-- Content of one word span:
`escape(word.text) + (needsTrailingSpace ? ' ' : '')` with
`needsTrailingSpace = !hasCJK(word.text) && !isLastWord`. -/
def spanContent (text : String) (isLastWord : Bool) : String :=
  escapeXML text ++ (if !hasCJK text && !isLastWord then " " else "")

/-- One `<span>` element of word-level TTML. -/
def wordSpan (w : SubtitleWord) (isLastWord : Bool) : String :=
  "<span begin=\"" ++ formatToTTMLTime w.start ++ "\" end=\"" ++
    formatToTTMLTime w.stop ++ "\">" ++ spanContent w.text isLastWord ++ "</span>"

/-- One `<p>` line of the TTML body. -/
def ttmlSegLine (seg : SubtitleSegment) : String :=
  let startStr := formatToTTMLTime seg.start
  let endStr := formatToTTMLTime seg.stop
  if seg.words.length > 0 then
    "      <p begin=\"" ++ startStr ++ "\" end=\"" ++ endStr ++ "\">" ++
      String.join (seg.words.enum.map fun p =>
        wordSpan p.2 (p.1 = seg.words.length - 1)) ++ "</p>"
  else
    "      <p begin=\"" ++ startStr ++ "\" end=\"" ++ endStr ++ "\">" ++
      escapeXML seg.text ++ "</p>"

/-- `generateTTML`.  The title (`metadata.title || "Lyrics"`) is
interpolated into the document *unescaped*, exactly as in the source. -/
def generateTTML (segments : List SubtitleSegment) (title? : Option String) : String :=
  let title := match title? with
    | some t => if t.isEmpty then "Lyrics" else t
    | none => "Lyrics"
  let bodyContent := String.intercalate "\n" (segments.map ttmlSegLine)
  "<?xml version=\"1.0\" encoding=\"UTF-8\"?>\n" ++
  "<tt xmlns=\"http://www.w3.org/ns/ttml\" xmlns:tts=\"http://www.w3.org/ns/ttml#styling\" xml:lang=\"mul\">\n" ++
  "  <head>\n    <metadata>\n      <ttm:title xmlns:ttm=\"http://www.w3.org/ns/ttml#metadata\">" ++
  title ++ "</ttm:title>\n    </metadata>\n    <styling>\n" ++
  "      <style xml:id=\"s1\" tts:fontSize=\"100%\" tts:fontFamily=\"sansSerif\" tts:color=\"white\" />\n" ++
  "    </styling>\n  </head>\n  <body>\n    <div>\n" ++
  bodyContent ++
  "\n    </div>\n  </body>\n</tt>"

/-! ## JSON values and `JSON.parse`
(model of the platform parser used by `tryRepairJson`) -/

/-- An in-memory JSON value. -/
inductive JVal where
  | null : JVal
  | bool (b : Bool) : JVal
  | num (q : ℚ) : JVal
  | str (s : String) : JVal
  | arr (elems : List JVal) : JVal
  | obj (fields : List (String × JVal)) : JVal

/-- JSON whitespace (RFC 8259: space, tab, line feed, carriage return). -/
def isJsonWS (c : Char) : Bool :=
  c.toNat = 32 || c.toNat = 9 || c.toNat = 10 || c.toNat = 13

def skipWS (l : List Char) : List Char := l.dropWhile isJsonWS

/-- String body after the opening quote: returns content and what
follows the closing quote.  The `\uXXXX` escape is unimplemented (fails)
— no input this development evaluates contains any escape at all. -/
def parseStrBody : ℕ → List Char → Option (List Char × List Char)
  | 0, _ => none
  | _, [] => none
  | fuel + 1, c :: rest =>
    if c = '"' then some ([], rest)
    else if c.toNat = 92 then
      match rest with
      | [] => none
      | e :: rest2 =>
        let esc : Option Char :=
          if e = '"' then some '"'
          else if e.toNat = 92 then some (Char.ofNat 92)
          else if e = '/' then some '/'
          else if e = 'b' then some (Char.ofNat 8)
          else if e = 'f' then some (Char.ofNat 12)
          else if e = 'n' then some (Char.ofNat 10)
          else if e = 'r' then some (Char.ofNat 13)
          else if e = 't' then some (Char.ofNat 9)
          else none
        match esc with
        | none => none
        | some c2 =>
          match parseStrBody fuel rest2 with
          | some (s, r) => some (c2 :: s, r)
          | none => none
    else if c.toNat < 32 then none
    else
      match parseStrBody fuel rest with
      | some (s, r) => some (c :: s, r)
      | none => none

/-- JSON number grammar `-? int frac? exp?` (strict: no leading zeros,
no leading `.`). -/
def parseJsonNum (l : List Char) : Option (ℚ × List Char) :=
  let (sgn, l1) : ℚ × List Char :=
    if l.headD ' ' = '-' then (-1, l.tail) else (1, l)
  let ip := l1.takeWhile isDigitC
  let r1 := l1.dropWhile isDigitC
  if ip.isEmpty then none
  else if ip.length > 1 && ip.headD ' ' = '0' then none
  else
    let (mant, r2) : ℚ × List Char :=
      if r1.headD ' ' = '.' then
        let fp := r1.tail.takeWhile isDigitC
        ((digitsVal ip : ℚ) + (digitsVal fp : ℚ) / (10 : ℚ) ^ fp.length,
         r1.tail.dropWhile isDigitC)
      else ((digitsVal ip : ℚ), r1)
    if r1.headD ' ' = '.' && (r1.tail.takeWhile isDigitC).isEmpty then none
    else if r2.headD ' ' = 'e' || r2.headD ' ' = 'E' then
      let r3 := r2.tail
      let (esgn, r4) : ℤ × List Char :=
        if r3.headD ' ' = '-' then (-1, r3.tail)
        else if r3.headD ' ' = '+' then (1, r3.tail) else (1, r3)
      let ed := r4.takeWhile isDigitC
      if ed.isEmpty then none
      else some (sgn * mant * (10 : ℚ) ^ (esgn * (digitsVal ed : ℤ)),
        r4.dropWhile isDigitC)
    else some (sgn * mant, r2)

mutual

/-- Recursive-descent JSON value parser (fuel-bounded so the recursion
stays structural; `jsonParse` supplies `length + 1` fuel, enough since
every recursive step consumes at least one character). -/
def parseVal : ℕ → List Char → Option (JVal × List Char)
  | 0, _ => none
  | fuel + 1, l =>
    let l := skipWS l
    match l with
    | [] => none
    | c :: rest =>
      if c = '"' then
        match parseStrBody (rest.length + 1) rest with
        | some (s, r) => some (JVal.str ⟨s⟩, r)
        | none => none
      else if c = Char.ofNat 123 then
        let r1 := skipWS rest
        if r1.headD ' ' = Char.ofNat 125 then some (JVal.obj [], r1.tail)
        else
          match parseObjItems fuel r1 with
          | some (fs, r) => some (JVal.obj fs, r)
          | none => none
      else if c = '[' then
        let r1 := skipWS rest
        if r1.headD ' ' = ']' then some (JVal.arr [], r1.tail)
        else
          match parseArrItems fuel r1 with
          | some (es, r) => some (JVal.arr es, r)
          | none => none
      else if "null".data.isPrefixOf l then some (JVal.null, l.drop 4)
      else if "true".data.isPrefixOf l then some (JVal.bool true, l.drop 4)
      else if "false".data.isPrefixOf l then some (JVal.bool false, l.drop 5)
      else
        match parseJsonNum l with
        | some (q, r) => some (JVal.num q, r)
        | none => none

/-- `value (',' value)*` then `]`. -/
def parseArrItems : ℕ → List Char → Option (List JVal × List Char)
  | 0, _ => none
  | fuel + 1, l =>
    match parseVal fuel l with
    | none => none
    | some (v, r) =>
      let r := skipWS r
      if r.headD ' ' = ',' then
        match parseArrItems fuel (skipWS r.tail) with
        | some (vs, r2) => some (v :: vs, r2)
        | none => none
      else if r.headD ' ' = ']' then some ([v], r.tail)
      else none

/-- `string ':' value (',' string ':' value)*` then `}`. -/
def parseObjItems : ℕ → List Char → Option (List (String × JVal) × List Char)
  | 0, _ => none
  | fuel + 1, l =>
    match skipWS l with
    | [] => none
    | c :: rest =>
      if c = '"' then
        match parseStrBody (rest.length + 1) rest with
        | none => none
        | some (k, r) =>
          let r := skipWS r
          if r.headD ' ' = ':' then
            match parseVal fuel r.tail with
            | none => none
            | some (v, r2) =>
              let r2 := skipWS r2
              if r2.headD ' ' = ',' then
                match parseObjItems fuel r2.tail with
                | some (fs, r3) => some ((⟨k⟩, v) :: fs, r3)
                | none => none
              else if r2.headD ' ' = Char.ofNat 125 then
                some ([(⟨k⟩, v)], r2.tail)
              else none
          else none
      else none

end

/-- `JSON.parse`: one complete value, nothing but whitespace after it. -/
def jsonParse (l : List Char) : Option JVal :=
  match parseVal (l.length + 1) l with
  | some (v, r) => if (skipWS r).isEmpty then some v else none
  | none => none

/-! ## tryRepairJson (src/services/geminiService.ts:102-149) -/

/-- The backtick character (code point 96). -/
def btick : Char := Char.ofNat 96

/-- `replace(/^```json/, '').replace(/```$/, '')`. -/
def stripFences (l : List Char) : List Char :=
  let fenceOpen : List Char := [btick, btick, btick, 'j', 's', 'o', 'n']
  let fenceClose : List Char := [btick, btick, btick]
  let l1 := if fenceOpen.isPrefixOf l then l.drop 7 else l
  if fenceClose.isSuffixOf l1 then l1.take (l1.length - 3) else l1

/-- JS `s.includes(sub)`. -/
def containsSub (needle : List Char) : List Char → Bool
  | [] => needle.isEmpty
  | c :: t => needle.isPrefixOf (c :: t) || containsSub needle t

/-- JS `s.lastIndexOf(c)` (−1 when absent). -/
def lastIdxOf (c : Char) (l : List Char) : ℤ :=
  match l.reverse.findIdx? (· = c) with
  | none => -1
  | some i => ((l.length - 1 - i : ℕ) : ℤ)

/-- JS `s.indexOf(c)` (−1 when absent). -/
def idxOf (c : Char) (l : List Char) : ℤ :=
  match l.findIdx? (· = c) with
  | none => -1
  | some i => (i : ℤ)

/-- `parsed.segments` member access. -/
def jGet (key : String) : JVal → Option JVal
  | JVal.obj fs => (fs.find? fun p => p.1 = key).map Prod.snd
  | _ => none

/-- JS truthiness of a possibly-absent member. -/
def jTruthy : Option JVal → Bool
  | none => false
  | some JVal.null => false
  | some (JVal.bool b) => b
  | some (JVal.num q) => q ≠ 0
  | some (JVal.str s) => !s.isEmpty
  | some (JVal.arr _) => true
  | some (JVal.obj _) => true

/-- Repair stage 1 (truncation): cut at the last `}`; append `]}` when
the last `]` sits before it, otherwise `}`; accept when the candidate
parses and has a truthy `segments` member. -/
def repairStage1 (trimmed : List Char) : Option JVal :=
  if containsSub "\"segments\"".data trimmed then
    let lastClosingBrace := lastIdxOf (Char.ofNat 125) trimmed
    let lastClosingBracket := lastIdxOf ']' trimmed
    if lastClosingBrace ≠ -1 then
      let candidate := trimmed.take (lastClosingBrace + 1).toNat
      let candidate :=
        if lastClosingBracket < lastClosingBrace then
          candidate ++ [']', Char.ofNat 125]
        else candidate ++ [Char.ofNat 125]
      match jsonParse candidate with
      | some parsed => if jTruthy (jGet "segments" parsed) then some parsed else none
      | none => none
    else none
  else none

/-- Loop body of repair stage 2: try `substring(arrayStart, i)` for
`i = length, …, arrayStart + 1`, accepting the first parse that is an
array (wrapped as `{segments: …}`). -/
def repairStage2Go (trimmed : List Char) (arrayStart : ℕ) : ℕ → Option JVal
  | 0 => none
  | i + 1 =>
    if i + 1 ≤ arrayStart then none
    else
      match jsonParse ((trimmed.take (i + 1)).drop arrayStart) with
      | some (JVal.arr a) => some (JVal.obj [("segments", JVal.arr a)])
      | _ => repairStage2Go trimmed arrayStart i

/-- Repair stage 2 (brute-force largest valid array). -/
def repairStage2 (trimmed : List Char) : Option JVal :=
  let arrayStart := idxOf '[' trimmed
  if arrayStart ≠ -1 then repairStage2Go trimmed arrayStart.toNat trimmed.length
  else none

/-- `tryRepairJson`: markdown strip, optimistic parse, truncation
repair, brute-force array scan, then the hard error. -/
def tryRepairJsonL (jsonString : List Char) : Except String JVal :=
  let trimmed := jsTrim (stripFences (jsTrim jsonString))
  match jsonParse trimmed with
  | some v => Except.ok v
  | none =>
    match repairStage1 trimmed with
    | some v => Except.ok v
    | none =>
      match repairStage2 trimmed with
      | some v => Except.ok v
      | none => Except.error "Transcription response malformed. The conversation might be too complex or long. Try using a shorter clip or a different granularity."

def tryRepairJson (s : String) : Except String JVal := tryRepairJsonL s.data

/-! ## Pattern predicates used by the claims -/

/-- The canonical fixed-width pattern `^\d{2}:\d{2}:\d{2}\.\d{3}$`. -/
def isCanonicalTS (l : List Char) : Bool :=
  match l with
  | [a, b, c1, c, d, c2, e, f, dot, g, h, i] =>
    isDigitC a && isDigitC b && c1 = ':' && isDigitC c && isDigitC d &&
    c2 = ':' && isDigitC e && isDigitC f && dot = '.' &&
    isDigitC g && isDigitC h && isDigitC i
  | _ => false

/-- The relaxed shape `^\d{2,}:\d{2,}:\d{2,}\.\d{3,}$`: three colon-split
fields, all digits, the first three at least two digits wide, the
millisecond field at least three.  This is what `normalizeTimestamp`
actually guarantees (fields overflow their width instead of being
clipped). -/
def isLooseTS (l : List Char) : Bool :=
  match splitCh ':' l with
  | [p0, p1, p2] =>
    p0.length ≥ 2 && p0.all isDigitC && p1.length ≥ 2 && p1.all isDigitC &&
    (match splitCh '.' p2 with
     | [s0, s1] =>
       s0.length ≥ 2 && s0.all isDigitC && s1.length ≥ 3 && s1.all isDigitC
     | _ => false)
  | _ => false

/-! ## Character lemmas -/

theorem toNat_ofNat (n : ℕ) (h : n < 55296) : (Char.ofNat n).toNat = n := by
  unfold Char.ofNat
  rw [dif_pos (Or.inl h)]
  rfl

theorem isDigitC_iff {c : Char} :
    isDigitC c = true ↔ 48 ≤ c.toNat ∧ c.toNat ≤ 57 := by
  simp [isDigitC]

theorem digitChar_toNat {d : ℕ} (h : d ≤ 9) : (digitChar d).toNat = 48 + d := by
  unfold digitChar
  exact toNat_ofNat _ (by omega)

theorem isDigitC_digitChar {d : ℕ} (h : d ≤ 9) : isDigitC (digitChar d) = true := by
  rw [isDigitC_iff, digitChar_toNat h]
  omega

theorem dval_digitChar {d : ℕ} (h : d ≤ 9) : dval (digitChar d) = d := by
  unfold dval
  rw [digitChar_toNat h]
  omega

theorem dval_le_9 {c : Char} (h : isDigitC c = true) : dval c ≤ 9 := by
  rw [isDigitC_iff] at h
  unfold dval
  omega

theorem digitChar_dval {c : Char} (h : isDigitC c = true) :
    digitChar (dval c) = c := by
  rw [isDigitC_iff] at h
  unfold digitChar dval
  have : 48 + (c.toNat - 48) = c.toNat := by omega
  rw [this, Char.ofNat_toNat]

theorem char_eq_iff_toNat {c : Char} {n : ℕ} (hn : n < 55296) :
    c = Char.ofNat n ↔ c.toNat = n := by
  constructor
  · rintro rfl
    exact toNat_ofNat n hn
  · intro h
    rw [← Char.ofNat_toNat c, h]

theorem digit_toNat_facts {c : Char} (h : isDigitC c = true) :
    c ≠ ':' ∧ c ≠ '.' ∧ c ≠ ',' ∧ c ≠ '-' ∧ c ≠ '+' ∧ isWSC c = false ∧
      isJsonWS c = false := by
  rw [isDigitC_iff] at h
  have hne : ∀ x : Char, x.toNat ≠ c.toNat → c ≠ x := by
    intro x hx hc
    exact hx (by rw [hc])
  have e1 : (':').toNat = 58 := rfl
  have e2 : ('.').toNat = 46 := rfl
  have e3 : (',').toNat = 44 := rfl
  have e4 : ('-').toNat = 45 := rfl
  have e5 : ('+').toNat = 43 := rfl
  refine ⟨hne _ (by omega), hne _ (by omega), hne _ (by omega),
    hne _ (by omega), hne _ (by omega), ?_, ?_⟩
  · simp only [isWSC, Bool.or_eq_false_iff, Bool.and_eq_false_iff,
      decide_eq_false_iff_not]
    omega
  · simp only [isJsonWS, Bool.or_eq_false_iff, decide_eq_false_iff_not]
    omega

theorem not_isWSC_of_digit {c : Char} (h : isDigitC c = true) : isWSC c = false :=
  (digit_toNat_facts h).2.2.2.2.2.1

/-! ## Decimal rendering lemmas -/

theorem decNatGo_congr : ∀ n f g, n < f → n < g → decNatGo f n = decNatGo g n := by
  intro n
  induction n using Nat.strong_induction_on with
  | _ n ih =>
    intro f g hf hg
    match f, g with
    | f + 1, g + 1 =>
      simp only [decNatGo]
      by_cases h10 : n < 10
      · simp [h10]
      · have hlt : n / 10 < n := Nat.div_lt_self (by omega) (by omega)
        simp only [if_neg h10]
        rw [ih (n / 10) hlt f g (by omega) (by omega)]

theorem decNat_eq (n : ℕ) :
    decNat n = if n < 10 then [digitChar n]
               else decNat (n / 10) ++ [digitChar (n % 10)] := by
  show decNatGo (n + 1) n = _
  by_cases h10 : n < 10
  · simp [decNatGo, h10]
  · have hlt : n / 10 < n := Nat.div_lt_self (by omega) (by omega)
    simp only [decNatGo, if_neg h10]
    rw [decNatGo_congr (n / 10) n (n / 10 + 1) hlt (by omega)]
    rfl

theorem decNat_all_digits (n : ℕ) : ∀ c ∈ decNat n, isDigitC c = true := by
  induction n using Nat.strong_induction_on with
  | _ n ih =>
    rw [decNat_eq]
    by_cases h10 : n < 10
    · simp only [if_pos h10, List.mem_singleton]
      rintro c rfl
      exact isDigitC_digitChar (by omega)
    · have hlt : n / 10 < n := Nat.div_lt_self (by omega) (by omega)
      simp only [if_neg h10, List.mem_append, List.mem_singleton]
      rintro c (hc | rfl)
      · exact ih _ hlt c hc
      · exact isDigitC_digitChar (Nat.le_of_lt_succ (Nat.mod_lt n (by omega)))

theorem decNat_ne_nil (n : ℕ) : decNat n ≠ [] := by
  rw [decNat_eq]
  by_cases h10 : n < 10 <;> simp [h10]

theorem digitsVal_append (a b : List Char) :
    digitsVal (a ++ b) = digitsVal a * 10 ^ b.length + digitsVal b := by
  induction b using List.reverseRecOn with
  | nil => simp [digitsVal]
  | append_singleton b c ih =>
    unfold digitsVal at *
    rw [← List.append_assoc]
    simp only [List.foldl_append, List.foldl_cons, List.foldl_nil, ih,
      List.length_append, List.length_cons, List.length_nil]
    ring

theorem digitsVal_decNat (n : ℕ) : digitsVal (decNat n) = n := by
  induction n using Nat.strong_induction_on with
  | _ n ih =>
    rw [decNat_eq]
    by_cases h10 : n < 10
    · simp [if_pos h10, digitsVal, dval_digitChar (by omega : n ≤ 9)]
    · have hlt : n / 10 < n := Nat.div_lt_self (by omega) (by omega)
      rw [if_neg h10, digitsVal_append, ih _ hlt]
      have : digitsVal [digitChar (n % 10)] = n % 10 := by
        simp [digitsVal, dval_digitChar (Nat.le_of_lt_succ (Nat.mod_lt n (by omega)))]
      rw [this]
      simp only [List.length_singleton, pow_one]
      omega

theorem decNat_length_le : ∀ k n, 1 ≤ k → n < 10 ^ k → (decNat n).length ≤ k := by
  intro k
  induction k with
  | zero => intro n hk; omega
  | succ k ih =>
    intro n hk h
    rw [decNat_eq]
    by_cases h10 : n < 10
    · rw [if_pos h10]
      simp
    · rcases Nat.eq_zero_or_pos k with rfl | hk1
      · rw [pow_one] at h
        omega
      · have hdiv : n / 10 < 10 ^ k := by
          rw [Nat.div_lt_iff_lt_mul (by norm_num)]
          rw [pow_succ] at h
          exact h
        rw [if_neg h10]
        simp only [List.length_append, List.length_singleton]
        have := ih (n / 10) hk1 hdiv
        omega

theorem decNat_lt_10 {n : ℕ} (h : n < 10) : decNat n = [digitChar n] := by
  rw [decNat_eq, if_pos h]

/-! ## Padding lemmas -/

theorem padStart_of_le {n : ℕ} {c : Char} {l : List Char} (h : n ≤ l.length) :
    padStart n c l = l := by
  unfold padStart
  rw [Nat.sub_eq_zero_of_le h]
  simp

theorem padStart_length (n : ℕ) (c : Char) (l : List Char) :
    (padStart n c l).length = max n l.length := by
  unfold padStart
  simp
  omega

theorem mem_padStart_zero {l : List Char} {x : Char} {n : ℕ}
    (hx : x ∈ padStart n '0' l) : x = '0' ∨ x ∈ l := by
  unfold padStart at hx
  rcases List.mem_append.1 hx with h | h
  · exact Or.inl (List.eq_of_mem_replicate h)
  · exact Or.inr h

theorem padStart_all_digits {l : List Char} {n : ℕ}
    (h : ∀ c ∈ l, isDigitC c = true) :
    ∀ c ∈ padStart n '0' l, isDigitC c = true := by
  intro c hc
  rcases mem_padStart_zero hc with rfl | hc
  · decide
  · exact h c hc

theorem digitsVal_replicate_zero (k : ℕ) :
    digitsVal (List.replicate k '0') = 0 := by
  induction k with
  | zero => rfl
  | succ k ih =>
    have : digitsVal (List.replicate (k + 1) '0') =
        digitsVal (List.replicate k '0' ++ ['0']) := by
      rw [← List.replicate_succ']
    rw [this, digitsVal_append, ih]
    decide

theorem digitsVal_padStart (n : ℕ) (l : List Char) :
    digitsVal (padStart n '0' l) = digitsVal l := by
  unfold padStart
  rw [digitsVal_append, digitsVal_replicate_zero]
  simp

theorem pad2_decNat {n : ℕ} (h : n < 100) :
    padStart 2 '0' (decNat n) = [digitChar (n / 10), digitChar (n % 10)] := by
  by_cases h10 : n < 10
  · rw [decNat_lt_10 h10]
    unfold padStart
    simp only [List.length_singleton]
    have : n / 10 = 0 := Nat.div_eq_of_lt h10
    rw [this, Nat.mod_eq_of_lt h10]
    rfl
  · have hq : n / 10 < 10 := by omega
    rw [decNat_eq, if_neg h10, decNat_lt_10 hq]
    exact padStart_of_le (by simp)

theorem pad3_decNat {n : ℕ} (h : n < 1000) :
    padStart 3 '0' (decNat n) =
      [digitChar (n / 100), digitChar (n / 10 % 10), digitChar (n % 10)] := by
  by_cases h10 : n < 10
  · rw [decNat_lt_10 h10]
    unfold padStart
    simp only [List.length_singleton]
    have h1 : n / 100 = 0 := Nat.div_eq_of_lt (by omega)
    have h2 : n / 10 % 10 = 0 := by
      rw [Nat.div_eq_of_lt h10]
    rw [h1, h2, Nat.mod_eq_of_lt h10]
    rfl
  · by_cases h100 : n < 100
    · have hq : n / 10 < 10 := by omega
      rw [decNat_eq, if_neg h10, decNat_lt_10 hq]
      unfold padStart
      simp only [List.length_append, List.length_singleton]
      have h1 : n / 100 = 0 := Nat.div_eq_of_lt h100
      have h2 : n / 10 % 10 = n / 10 := Nat.mod_eq_of_lt hq
      rw [h1, h2]
      rfl
    · have hq : n / 10 < 100 := by omega
      have hq10 : ¬ n / 10 < 10 := by omega
      have hqq : n / 10 / 10 < 10 := by omega
      rw [decNat_eq, if_neg h10, decNat_eq, if_neg hq10, decNat_lt_10 hqq]
      have h1 : n / 10 / 10 = n / 100 := by
        rw [Nat.div_div_eq_div_mul]
      rw [h1]
      exact padStart_of_le (by simp)

/-! ## takeWhile / dropWhile / parse lemmas -/

theorem takeWhile_eq_self {p : Char → Bool} {l : List Char}
    (h : ∀ c ∈ l, p c = true) : l.takeWhile p = l := by
  induction l with
  | nil => rfl
  | cons c cs ih =>
    rw [List.takeWhile_cons, if_pos (h c (List.mem_cons_self c cs))]
    rw [ih fun x hx => h x (List.mem_cons_of_mem c hx)]

theorem dropWhile_eq_nil {p : Char → Bool} {l : List Char}
    (h : ∀ c ∈ l, p c = true) : l.dropWhile p = [] := by
  induction l with
  | nil => rfl
  | cons c cs ih =>
    rw [List.dropWhile_cons, if_pos (h c (List.mem_cons_self c cs))]
    exact ih fun x hx => h x (List.mem_cons_of_mem c hx)

theorem dropWhile_cons_of_neg {p : Char → Bool} {c : Char} {l : List Char}
    (h : p c = false) : (c :: l).dropWhile p = c :: l := by
  rw [List.dropWhile_cons, h]
  simp

theorem headD_dropWhile_mem {p : Char → Bool} {l : List Char} {d x : Char}
    (h : (l.dropWhile p).headD d = x) (hx : x ≠ d) : x ∈ l := by
  match hd : l.dropWhile p with
  | [] =>
    rw [hd] at h
    simp only [List.headD_nil] at h
    exact absurd h.symm hx
  | c :: cs =>
    rw [hd] at h
    simp only [List.headD_cons] at h
    have hmem : x ∈ l.dropWhile p := by
      rw [hd, ← h]
      exact List.mem_cons_self _ _
    exact (List.dropWhile_sublist p).mem hmem

theorem parseIntCore_digits {l : List Char} (hne : l ≠ [])
    (h : ∀ c ∈ l, isDigitC c = true) : parseIntCore l = some (digitsVal l) := by
  unfold parseIntCore
  rw [takeWhile_eq_self h]
  simp [hne]

theorem parseIntJS_digits {l : List Char} (hne : l ≠ [])
    (h : ∀ c ∈ l, isDigitC c = true) :
    parseIntJS l = some ((digitsVal l : ℤ)) := by
  match l, hne with
  | c :: cs, _ =>
    have hc := h c (List.mem_cons_self c cs)
    have hfacts := digit_toNat_facts hc
    unfold parseIntJS
    rw [dropWhile_cons_of_neg hfacts.2.2.2.2.2.1]
    simp only [List.headD_cons]
    rw [if_neg hfacts.2.2.2.1, if_neg hfacts.2.2.2.2.1]
    rw [parseIntCore_digits (List.cons_ne_nil c cs) h]
    rfl

theorem pfCore_digits {l : List Char} (hne : l ≠ [])
    (h : ∀ c ∈ l, isDigitC c = true) :
    pfCore 1 l = some ((digitsVal l : ℚ)) := by
  unfold pfCore
  rw [takeWhile_eq_self h, dropWhile_eq_nil h]
  simp only [List.headD_nil]
  rw [if_neg (by decide : ¬ (' ' = '.'))]
  rw [if_neg (by simp [hne] : ¬ l.isEmpty = true)]
  rw [one_mul]

theorem pfCore_digits_dot {a b : List Char} (hne : a ≠ [])
    (ha : ∀ c ∈ a, isDigitC c = true) (hb : ∀ c ∈ b, isDigitC c = true) :
    pfCore 1 (a ++ '.' :: b) =
      some ((digitsVal a : ℚ) + (digitsVal b : ℚ) / (10 : ℚ) ^ b.length) := by
  have h2 : (a ++ '.' :: b).takeWhile isDigitC = a := by
    rw [List.takeWhile_append, takeWhile_eq_self ha, if_pos rfl]
    rw [List.takeWhile_cons, if_neg (by decide : ¬ isDigitC '.' = true)]
    simp
  have h3 : (a ++ '.' :: b).dropWhile isDigitC = '.' :: b := by
    rw [List.dropWhile_append, dropWhile_eq_nil ha]
    simp only [List.isEmpty_nil, if_true]
    exact dropWhile_cons_of_neg (by decide)
  unfold pfCore
  rw [h2, h3]
  simp only [List.headD_cons, List.tail_cons, if_pos rfl]
  rw [takeWhile_eq_self hb]
  rw [if_neg (by simp [hne] : ¬ (a.isEmpty && b.isEmpty) = true)]
  rw [one_mul]
  exact if_pos trivial

theorem parseFloatJS_head_digit {l : List Char} {c : Char} {cs : List Char}
    (hl : l = c :: cs) (hc : isDigitC c = true) :
    parseFloatJS l = pfCore 1 l := by
  subst hl
  have hf := digit_toNat_facts hc
  unfold parseFloatJS
  rw [dropWhile_cons_of_neg hf.2.2.2.2.2.1]
  simp only [List.headD_cons]
  rw [if_neg hf.2.2.2.1, if_neg hf.2.2.2.2.1]

theorem parseFloatJS_digits {l : List Char} (hne : l ≠ [])
    (h : ∀ c ∈ l, isDigitC c = true) :
    parseFloatJS l = some ((digitsVal l : ℚ)) := by
  match l, hne with
  | c :: cs, _ =>
    rw [parseFloatJS_head_digit rfl (h c (List.mem_cons_self c cs))]
    exact pfCore_digits (List.cons_ne_nil c cs) h

theorem parseFloatJS_digits_dot {a b : List Char} (hne : a ≠ [])
    (ha : ∀ c ∈ a, isDigitC c = true) (hb : ∀ c ∈ b, isDigitC c = true) :
    parseFloatJS (a ++ '.' :: b) =
      some ((digitsVal a : ℚ) + (digitsVal b : ℚ) / (10 : ℚ) ^ b.length) := by
  match a, hne with
  | c :: cs, _ =>
    rw [List.cons_append,
      parseFloatJS_head_digit rfl (ha c (List.mem_cons_self c cs)),
      ← List.cons_append]
    exact pfCore_digits_dot (List.cons_ne_nil c cs) ha hb

/-! ## Sign-free inputs yield non-negative parses -/

theorem parseIntJS_getD_nonneg {l : List Char} (h : ('-' : Char) ∉ l) :
    0 ≤ (parseIntJS l).getD 0 := by
  unfold parseIntJS
  by_cases hm : ((l.dropWhile isWSC).headD ' ' = '-')
  · exact absurd (headD_dropWhile_mem hm (by decide)) h
  · rw [if_neg hm]
    by_cases hp : ((l.dropWhile isWSC).headD ' ' = '+')
    · rw [if_pos hp]
      cases parseIntCore (l.dropWhile isWSC).tail <;> simp
    · rw [if_neg hp]
      cases parseIntCore (l.dropWhile isWSC) <;> simp

theorem pfCore_one_nonneg {t : List Char} {q : ℚ}
    (hq : pfCore 1 t = some q) : 0 ≤ q := by
  unfold pfCore at hq
  by_cases hdot : ((t.dropWhile isDigitC).headD ' ' = '.')
  · rw [if_pos hdot] at hq
    by_cases hemp : ((t.takeWhile isDigitC).isEmpty &&
        ((t.dropWhile isDigitC).tail.takeWhile isDigitC).isEmpty) = true
    · rw [if_pos hemp] at hq
      exact absurd hq (by simp)
    · rw [if_neg hemp, Option.some_inj] at hq
      rw [← hq, one_mul]
      positivity
  · rw [if_neg hdot] at hq
    by_cases hemp : ((t.takeWhile isDigitC).isEmpty) = true
    · rw [if_pos hemp] at hq
      exact absurd hq (by simp)
    · rw [if_neg hemp, Option.some_inj] at hq
      rw [← hq, one_mul]
      positivity

theorem parseFloatJS_nonneg {l : List Char} (h : ('-' : Char) ∉ l) {q : ℚ}
    (hq : parseFloatJS l = some q) : 0 ≤ q := by
  unfold parseFloatJS at hq
  by_cases hm : ((l.dropWhile isWSC).headD ' ' = '-')
  · exact absurd (headD_dropWhile_mem hm (by decide)) h
  · rw [if_neg hm] at hq
    by_cases hp : ((l.dropWhile isWSC).headD ' ' = '+')
    · rw [if_pos hp] at hq
      exact pfCore_one_nonneg hq
    · rw [if_neg hp] at hq
      exact pfCore_one_nonneg hq

/-! ## splitCh lemmas -/

theorem splitCh_cons (sep c : Char) (cs : List Char) :
    splitCh sep (c :: cs) =
      if c = sep then [] :: splitCh sep cs
      else
        match splitCh sep cs with
        | [] => [[c]]
        | h :: t => (c :: h) :: t := by
  rw [splitCh]

theorem splitCh_ne_nil (sep : Char) (l : List Char) : splitCh sep l ≠ [] := by
  match l with
  | [] => simp [splitCh]
  | c :: cs =>
    unfold splitCh
    by_cases h : c = sep
    · simp [h]
    · rw [if_neg h]
      match splitCh sep cs with
      | [] => simp
      | h2 :: t => simp

theorem splitCh_of_not_mem {sep : Char} {l : List Char} (h : sep ∉ l) :
    splitCh sep l = [l] := by
  induction l with
  | nil => rfl
  | cons c cs ih =>
    have hcs : ¬ (c = sep) := fun hc => h (hc ▸ List.mem_cons_self c cs)
    unfold splitCh
    rw [if_neg hcs]
    rw [ih fun hc => h (List.mem_cons_of_mem c hc)]

theorem splitCh_append {sep : Char} {xs : List Char} (rest : List Char)
    (h : sep ∉ xs) :
    splitCh sep (xs ++ sep :: rest) = xs :: splitCh sep rest := by
  induction xs with
  | nil =>
    simp only [List.nil_append]
    rw [splitCh_cons, if_pos rfl]
  | cons c cs ih =>
    have hcs : ¬ (c = sep) := fun hc => h (hc ▸ List.mem_cons_self c cs)
    simp only [List.cons_append]
    rw [splitCh_cons, if_neg hcs]
    rw [ih fun hc => h (List.mem_cons_of_mem c hc)]

theorem mem_of_mem_splitCh {sep : Char} {l : List Char} :
    ∀ p ∈ splitCh sep l, ∀ c ∈ p, c ∈ l := by
  induction l with
  | nil =>
    intro p hp c hc
    simp [splitCh] at hp
    subst hp
    exact absurd hc (List.not_mem_nil c)
  | cons x xs ih =>
    intro p hp c hc
    unfold splitCh at hp
    by_cases hx : x = sep
    · rw [if_pos hx] at hp
      rcases List.mem_cons.1 hp with rfl | hp
      · exact absurd hc (List.not_mem_nil c)
      · exact List.mem_cons_of_mem x (ih p hp c hc)
    · rw [if_neg hx] at hp
      match hsp : splitCh sep xs, splitCh_ne_nil sep xs with
      | h2 :: t, _ =>
        rw [hsp] at hp
        rcases List.mem_cons.1 hp with rfl | hp
        · rcases List.mem_cons.1 hc with rfl | hc
          · exact List.mem_cons_self c xs
          · exact List.mem_cons_of_mem x
              (ih h2 (hsp ▸ List.mem_cons_self h2 t) c hc)
        · exact List.mem_cons_of_mem x
            (ih p (hsp ▸ List.mem_cons_of_mem h2 hp) c hc)

theorem mem_headD_splitCh {sep : Char} {l : List Char} {c : Char}
    (hc : c ∈ (splitCh sep l).headD []) : c ∈ l := by
  match hsp : splitCh sep l, splitCh_ne_nil sep l with
  | p :: t, _ =>
    rw [hsp] at hc
    exact mem_of_mem_splitCh p (hsp ▸ List.mem_cons_self p t) c hc

/-! ## jsMod / jsRound / jsFloor sign lemmas -/

theorem jsTrunc_of_nonneg {q : ℚ} (h : 0 ≤ q) : jsTrunc q = ⌊q⌋ := by
  unfold jsTrunc
  rw [if_pos h]

theorem jsMod_nonneg {a b : ℚ} (ha : 0 ≤ a) (hb : 0 < b) : 0 ≤ jsMod a b := by
  unfold jsMod
  rw [jsTrunc_of_nonneg (by positivity)]
  have := Int.sub_floor_div_mul_nonneg a hb
  linarith [this]

theorem jsFloor_nonneg {q : ℚ} (h : 0 ≤ q) : 0 ≤ jsFloor q :=
  Int.floor_nonneg.mpr h

theorem jsRound_nonneg {q : ℚ} (h : 0 ≤ q) : 0 ≤ jsRound q :=
  Int.floor_nonneg.mpr (by linarith)

/-! ## fmtHMS structure lemmas -/

theorem intToStr_natCast (n : ℕ) : intToStr (n : ℤ) = decNat n := by
  unfold intToStr
  rw [if_neg (by omega : ¬ (n : ℤ) < 0)]
  simp

theorem pad_decNat_digits (k n : ℕ) :
    ∀ c ∈ padStart k '0' (decNat n), isDigitC c = true :=
  padStart_all_digits (decNat_all_digits n)

theorem pad_decNat_ne_nil (k n : ℕ) : padStart k '0' (decNat n) ≠ [] := by
  unfold padStart
  simp [decNat_ne_nil n]

theorem digitsVal_pad_decNat (k n : ℕ) :
    digitsVal (padStart k '0' (decNat n)) = n := by
  rw [digitsVal_padStart, digitsVal_decNat]

theorem colon_not_mem_pad_decNat (k n : ℕ) :
    (':' : Char) ∉ padStart k '0' (decNat n) := fun hmem =>
  (digit_toNat_facts (pad_decNat_digits k n ':' hmem)).1 rfl

theorem splitCh_colon_fmtHMS (a b c d : ℕ) :
    splitCh ':' (fmtHMS (a : ℤ) (b : ℤ) (c : ℤ) (d : ℤ)) =
      [padStart 2 '0' (decNat a), padStart 2 '0' (decNat b),
        padStart 2 '0' (decNat c) ++ '.' :: padStart 3 '0' (decNat d)] := by
  unfold fmtHMS
  rw [intToStr_natCast, intToStr_natCast, intToStr_natCast, intToStr_natCast]
  simp only [List.cons_append, List.append_assoc]
  rw [splitCh_append _ (colon_not_mem_pad_decNat 2 a)]
  rw [splitCh_append _ (colon_not_mem_pad_decNat 2 b)]
  rw [splitCh_of_not_mem ?_]
  intro hmem
  rcases List.mem_append.1 hmem with h1 | h1
  · exact colon_not_mem_pad_decNat 2 c h1
  · rcases List.mem_cons.1 h1 with h2 | h2
    · exact absurd h2.symm (by decide)
    · exact colon_not_mem_pad_decNat 3 d h2

theorem timestampToSecondsL_fmtHMS (a b c d : ℕ) :
    timestampToSecondsL (fmtHMS (a : ℤ) (b : ℤ) (c : ℤ) (d : ℤ)) =
      some ((a : ℚ) * 3600 + (b : ℚ) * 60 +
        ((c : ℚ) + (d : ℚ) / (10 : ℚ) ^ (padStart 3 '0' (decNat d)).length)) := by
  unfold timestampToSecondsL
  rw [splitCh_colon_fmtHMS]
  dsimp only
  rw [parseFloatJS_digits (pad_decNat_ne_nil 2 a) (pad_decNat_digits 2 a)]
  rw [parseFloatJS_digits (pad_decNat_ne_nil 2 b) (pad_decNat_digits 2 b)]
  rw [parseFloatJS_digits_dot (pad_decNat_ne_nil 2 c) (pad_decNat_digits 2 c)
    (pad_decNat_digits 3 d)]
  rw [digitsVal_pad_decNat, digitsVal_pad_decNat, digitsVal_pad_decNat,
    digitsVal_pad_decNat]
  rfl

/-! ## Shape of normalizeTimestamp output -/

theorem minus_not_mem_of_allowed {clean : List Char}
    (hc : ∀ c ∈ clean, isDigitC c = true ∨ c = ':' ∨ c = '.') :
    ('-' : Char) ∉ clean := by
  intro hmem
  rcases hc '-' hmem with h | h | h
  · exact absurd h (by decide)
  · exact absurd h (by decide)
  · exact absurd h (by decide)

theorem msFromSecParts_nonneg {sp : List (List Char)}
    (h : ∀ p ∈ sp, ('-' : Char) ∉ p) : 0 ≤ msFromSecParts sp := by
  match sp, h with
  | [], _ => simp [msFromSecParts]
  | [s0], _ => simp [msFromSecParts]
  | s0 :: s1 :: t, h =>
    simp only [msFromSecParts]
    by_cases hemp : s1.isEmpty = true
    · rw [if_pos hemp]
    · rw [if_neg hemp]
      apply parseIntJS_getD_nonneg
      intro hmem
      unfold padEnd at hmem
      rcases List.mem_append.1 hmem with h1 | h1
      · exact h s1 (List.mem_cons_of_mem s0 (List.mem_cons_self s1 t))
          ((List.take_sublist 3 s1).mem h1)
      · exact absurd (List.eq_of_mem_replicate h1) (by decide)

theorem partsToHMS_nonneg {parts : List (List Char)}
    (h : ∀ p ∈ parts, ('-' : Char) ∉ p) :
    0 ≤ (partsToHMS parts).1 ∧ 0 ≤ (partsToHMS parts).2.1 ∧
      0 ≤ (partsToHMS parts).2.2.1 ∧ 0 ≤ (partsToHMS parts).2.2.2 := by
  have hsub : ∀ p ∈ parts, ∀ sp ∈ splitCh '.' p, ('-' : Char) ∉ sp :=
    fun p hp sp hsp hmem => h p hp (mem_of_mem_splitCh sp hsp '-' hmem)
  have hhead : ∀ p ∈ parts, ('-' : Char) ∉ (splitCh '.' p).headD [] :=
    fun p hp hmem => h p hp (mem_headD_splitCh hmem)
  match parts, h, hsub, hhead with
  | [], _, _, _ => exact ⟨le_refl 0, le_refl 0, le_refl 0, le_refl 0⟩
  | [p0], h, hsub, hhead =>
    have hm := List.mem_cons_self p0 ([] : List (List Char))
    exact ⟨le_refl 0, le_refl 0,
      parseIntJS_getD_nonneg (hhead p0 hm),
      msFromSecParts_nonneg (hsub p0 hm)⟩
  | [p0, p1], h, hsub, hhead =>
    have hm1 : p1 ∈ [p0, p1] := List.mem_cons_of_mem p0 (List.mem_cons_self p1 [])
    exact ⟨le_refl 0,
      parseIntJS_getD_nonneg fun hmem => h p0 (List.mem_cons_self p0 [p1]) hmem,
      parseIntJS_getD_nonneg (hhead p1 hm1),
      msFromSecParts_nonneg (hsub p1 hm1)⟩
  | [p0, p1, p2], h, hsub, hhead =>
    have hm2 : p2 ∈ [p0, p1, p2] :=
      List.mem_cons_of_mem p0 (List.mem_cons_of_mem p1 (List.mem_cons_self p2 []))
    exact ⟨parseIntJS_getD_nonneg fun hmem => h p0 (List.mem_cons_self p0 [p1, p2]) hmem,
      parseIntJS_getD_nonneg fun hmem =>
        h p1 (List.mem_cons_of_mem p0 (List.mem_cons_self p1 [p2])) hmem,
      parseIntJS_getD_nonneg (hhead p2 hm2),
      msFromSecParts_nonneg (hsub p2 hm2)⟩
  | p0 :: p1 :: p2 :: p3 :: t, _, _, _ =>
    exact ⟨le_refl 0, le_refl 0, le_refl 0, le_refl 0⟩

theorem fmtHMS_toNat {h m s ms : ℤ} (hh : 0 ≤ h) (hm : 0 ≤ m) (hs : 0 ≤ s)
    (hms : 0 ≤ ms) :
    fmtHMS h m s ms =
      fmtHMS (h.toNat : ℤ) (m.toNat : ℤ) (s.toNat : ℤ) (ms.toNat : ℤ) := by
  rw [Int.toNat_of_nonneg hh, Int.toNat_of_nonneg hm, Int.toNat_of_nonneg hs,
    Int.toNat_of_nonneg hms]

theorem normalizeFromClean_shape {clean : List Char}
    (hc : ∀ c ∈ clean, isDigitC c = true ∨ c = ':' ∨ c = '.') :
    ∃ a b c d : ℕ,
      normalizeFromClean clean = fmtHMS (a : ℤ) (b : ℤ) (c : ℤ) (d : ℤ) := by
  have hminus := minus_not_mem_of_allowed hc
  unfold normalizeFromClean
  by_cases hg : (!(listContains ':' clean) && !clean.isEmpty &&
      clean.all (fun c => isDigitC c || c = '.')) = true
  · rw [if_pos hg]
    match hpf : parseFloatJS clean with
    | some total =>
      have htot : 0 ≤ total := parseFloatJS_nonneg hminus hpf
      refine ⟨(jsFloor (total / 3600)).toNat, (jsFloor (jsMod total 3600 / 60)).toNat,
        (jsFloor (jsMod total 60)).toNat, (jsRound (jsMod total 1 * 1000)).toNat, ?_⟩
      show fmtHMS _ _ _ _ = _
      rw [← fmtHMS_toNat (jsFloor_nonneg (div_nonneg htot (by norm_num)))
        (jsFloor_nonneg (div_nonneg (jsMod_nonneg htot (by norm_num)) (by norm_num)))
        (jsFloor_nonneg (jsMod_nonneg htot (by norm_num)))
        (jsRound_nonneg (mul_nonneg (jsMod_nonneg htot one_pos) (by norm_num)))]
    | none =>
      have hp : 0 ≤ (partsToHMS (splitCh ':' clean)).1 ∧
          0 ≤ (partsToHMS (splitCh ':' clean)).2.1 ∧
          0 ≤ (partsToHMS (splitCh ':' clean)).2.2.1 ∧
          0 ≤ (partsToHMS (splitCh ':' clean)).2.2.2 := partsToHMS_nonneg
        (fun p hp hmem => hminus (mem_of_mem_splitCh p hp '-' hmem))
      refine ⟨(partsToHMS (splitCh ':' clean)).1.toNat,
        (partsToHMS (splitCh ':' clean)).2.1.toNat,
        (partsToHMS (splitCh ':' clean)).2.2.1.toNat,
        (partsToHMS (splitCh ':' clean)).2.2.2.toNat, ?_⟩
      rw [← fmtHMS_toNat hp.1 hp.2.1 hp.2.2.1 hp.2.2.2]
  · rw [if_neg hg]
    have hp : 0 ≤ (partsToHMS (splitCh ':' clean)).1 ∧
        0 ≤ (partsToHMS (splitCh ':' clean)).2.1 ∧
        0 ≤ (partsToHMS (splitCh ':' clean)).2.2.1 ∧
        0 ≤ (partsToHMS (splitCh ':' clean)).2.2.2 := partsToHMS_nonneg
      (fun p hp hmem => hminus (mem_of_mem_splitCh p hp '-' hmem))
    refine ⟨(partsToHMS (splitCh ':' clean)).1.toNat,
      (partsToHMS (splitCh ':' clean)).2.1.toNat,
      (partsToHMS (splitCh ':' clean)).2.2.1.toNat,
      (partsToHMS (splitCh ':' clean)).2.2.2.toNat, ?_⟩
    rw [← fmtHMS_toNat hp.1 hp.2.1 hp.2.2.1 hp.2.2.2]

theorem normalizeTimestampL_shape (l : List Char) :
    ∃ a b c d : ℕ,
      normalizeTimestampL l = fmtHMS (a : ℤ) (b : ℤ) (c : ℤ) (d : ℤ) := by
  unfold normalizeTimestampL
  by_cases hemp : l.isEmpty = true
  · rw [if_pos hemp]
    exact ⟨0, 0, 0, 0, by decide⟩
  · rw [if_neg hemp]
    apply normalizeFromClean_shape
    intro c hc
    have hmem := List.mem_filter.1 hc
    have hp := hmem.2
    simp only [Bool.or_eq_true, decide_eq_true_eq] at hp
    tauto

/-! ## No-digit inputs collapse to zero -/

theorem dropWhile_eq_self_of_all {p : Char → Bool} {l : List Char}
    (h : ∀ c ∈ l, p c = false) : l.dropWhile p = l := by
  match l with
  | [] => rfl
  | c :: cs => exact dropWhile_cons_of_neg (h c (List.mem_cons_self c cs))

theorem takeWhile_eq_nil_of_head {p : Char → Bool} {l : List Char}
    (h : ∀ c ∈ l, p c = false) : l.takeWhile p = [] := by
  match l with
  | [] => rfl
  | c :: cs =>
    rw [List.takeWhile_cons, if_neg (by simp [h c (List.mem_cons_self c cs)])]

theorem parseIntJS_getD_zero_of_no_digits {l : List Char}
    (hd : ∀ c ∈ l, isDigitC c = false) (hws : ∀ c ∈ l, isWSC c = false)
    (hm : ('-' : Char) ∉ l) (hp : ('+' : Char) ∉ l) :
    (parseIntJS l).getD 0 = 0 := by
  unfold parseIntJS
  rw [dropWhile_eq_self_of_all hws]
  have hmh : ¬ (l.headD ' ' = '-') := by
    intro h
    match l, h with
    | [], h => exact absurd h (by decide)
    | c :: cs, h =>
      have hc : c = '-' := by simpa using h
      exact hm (hc ▸ List.mem_cons_self c cs)
  have hph : ¬ (l.headD ' ' = '+') := by
    intro h
    match l, h with
    | [], h => exact absurd h (by decide)
    | c :: cs, h =>
      have hc : c = '+' := by simpa using h
      exact hp (hc ▸ List.mem_cons_self c cs)
  rw [if_neg hmh, if_neg hph]
  unfold parseIntCore
  rw [takeWhile_eq_nil_of_head hd]
  rfl

theorem parseFloatJS_all_dots {l : List Char} (hne : ¬ l.isEmpty = true)
    (hdots : ∀ c ∈ l, c = '.') : parseFloatJS l = none := by
  match l, hne with
  | c :: cs, _ =>
    have hc : c = '.' := hdots c (List.mem_cons_self c cs)
    subst hc
    have htail : ∀ x ∈ cs, x = '.' := fun x hx =>
      hdots x (List.mem_cons_of_mem _ hx)
    unfold parseFloatJS
    rw [dropWhile_cons_of_neg (by decide)]
    simp only [List.headD_cons]
    rw [if_neg (by decide : ¬ ('.' = '-')), if_neg (by decide : ¬ ('.' = '+'))]
    unfold pfCore
    rw [takeWhile_eq_nil_of_head
      (fun x hx => by rw [hdots x hx]; decide)]
    rw [dropWhile_eq_self_of_all (fun x hx => by rw [hdots x hx]; decide)]
    simp only [List.headD_cons, List.tail_cons, if_pos rfl]
    rw [takeWhile_eq_nil_of_head (fun x hx => by rw [htail x hx]; decide)]
    rfl

theorem sep_not_mem_of_mem_splitCh {sep : Char} {l : List Char} :
    ∀ p ∈ splitCh sep l, sep ∉ p := by
  induction l with
  | nil =>
    intro p hp
    simp [splitCh] at hp
    subst hp
    exact List.not_mem_nil sep
  | cons x xs ih =>
    intro p hp
    rw [splitCh_cons] at hp
    by_cases hx : x = sep
    · rw [if_pos hx] at hp
      rcases List.mem_cons.1 hp with rfl | hp
      · exact List.not_mem_nil sep
      · exact ih p hp
    · rw [if_neg hx] at hp
      match hsp : splitCh sep xs, splitCh_ne_nil sep xs with
      | h2 :: t, _ =>
        rw [hsp] at hp
        rcases List.mem_cons.1 hp with rfl | hp
        · intro hmem
          rcases List.mem_cons.1 hmem with h3 | h3
          · exact hx h3.symm
          · exact ih h2 (hsp ▸ List.mem_cons_self h2 t) h3
        · exact ih p (hsp ▸ List.mem_cons_of_mem h2 hp)

theorem partsToHMS_all_dots {parts : List (List Char)}
    (h : ∀ p ∈ parts, ∀ c ∈ p, c = '.') : partsToHMS parts = (0, 0, 0, 0) := by
  have hint : ∀ p, (∀ c ∈ p, c = '.') → (parseIntJS p).getD 0 = 0 := by
    intro p hp
    apply parseIntJS_getD_zero_of_no_digits
    · intro c hc
      rw [hp c hc]
      decide
    · intro c hc
      rw [hp c hc]
      decide
    · intro hc
      exact absurd (hp '-' hc) (by decide)
    · intro hc
      exact absurd (hp '+' hc) (by decide)
  have hhead : ∀ p, (∀ c ∈ p, c = '.') →
      (parseIntJS ((splitCh '.' p).headD [])).getD 0 = 0 := by
    intro p hp
    apply hint
    intro c hc
    exact hp c (mem_headD_splitCh hc)
  have hms : ∀ p, (∀ c ∈ p, c = '.') → msFromSecParts (splitCh '.' p) = 0 := by
    intro p hp
    match hsp : splitCh '.' p, splitCh_ne_nil '.' p with
    | [s0], _ => simp [msFromSecParts]
    | s0 :: s1 :: t, _ =>
      simp only [msFromSecParts]
      have hs1 : s1 = [] := by
        rw [List.eq_nil_iff_forall_not_mem]
        intro c hc
        have hdot : c = '.' :=
          hp c (mem_of_mem_splitCh s1
            (hsp ▸ List.mem_cons_of_mem s0 (List.mem_cons_self s1 t)) c hc)
        exact sep_not_mem_of_mem_splitCh s1
          (hsp ▸ List.mem_cons_of_mem s0 (List.mem_cons_self s1 t)) (hdot ▸ hc)
      rw [if_pos (by simp [hs1])]
  match parts, h with
  | [], _ => rfl
  | [p0], h =>
    have h0 := h p0 (List.mem_cons_self p0 [])
    simp only [partsToHMS]
    rw [hhead p0 h0, hms p0 h0]
  | [p0, p1], h =>
    have h0 := h p0 (List.mem_cons_self p0 [p1])
    have h1 := h p1 (List.mem_cons_of_mem p0 (List.mem_cons_self p1 []))
    simp only [partsToHMS]
    rw [hint p0 h0, hhead p1 h1, hms p1 h1]
  | [p0, p1, p2], h =>
    have h0 := h p0 (List.mem_cons_self p0 [p1, p2])
    have h1 := h p1 (List.mem_cons_of_mem p0 (List.mem_cons_self p1 [p2]))
    have h2 := h p2 (List.mem_cons_of_mem p0
      (List.mem_cons_of_mem p1 (List.mem_cons_self p2 [])))
    simp only [partsToHMS]
    rw [hint p0 h0, hint p1 h1, hhead p2 h2, hms p2 h2]
  | p0 :: p1 :: p2 :: p3 :: t, _ => rfl

theorem normalizeFromClean_no_digits {clean : List Char}
    (hal : ∀ c ∈ clean, isDigitC c = true ∨ c = ':' ∨ c = '.')
    (hnd : ∀ c ∈ clean, isDigitC c = false) :
    normalizeFromClean clean = fmtHMS 0 0 0 0 := by
  have hdotsOrColon : ∀ c ∈ clean, c = ':' ∨ c = '.' := by
    intro c hc
    rcases hal c hc with h | h | h
    · rw [hnd c hc] at h
      exact absurd h (by decide)
    · exact Or.inl h
    · exact Or.inr h
  have hparts : ∀ p ∈ splitCh ':' clean, ∀ c ∈ p, c = '.' := by
    intro p hp c hc
    rcases hdotsOrColon c (mem_of_mem_splitCh p hp c hc) with h | h
    · exact absurd (h ▸ hc) (sep_not_mem_of_mem_splitCh p hp)
    · exact h
  unfold normalizeFromClean
  by_cases hg : (!(listContains ':' clean) && !clean.isEmpty &&
      clean.all (fun c => isDigitC c || c = '.')) = true
  · rw [if_pos hg]
    have hgc : ¬ clean.isEmpty = true := by
      simp only [Bool.and_eq_true, Bool.not_eq_true'] at hg
      simp [hg.1.2]
    have hdots : ∀ c ∈ clean, c = '.' := by
      intro c hc
      rcases hdotsOrColon c hc with h | h
      · exfalso
        simp only [Bool.and_eq_true, Bool.not_eq_true'] at hg
        have h2 : listContains ':' clean = true := by
          simp only [listContains, List.any_eq_true]
          exact ⟨c, hc, by simp [h]⟩
        rw [hg.1.1] at h2
        exact Bool.false_ne_true h2
      · exact h
    rw [parseFloatJS_all_dots hgc hdots]
    rw [partsToHMS_all_dots hparts]
  · rw [if_neg hg]
    rw [partsToHMS_all_dots hparts]

/-! ## Claim C1 -/

/-- C1: for every input string `s` the parse pipeline
`timestampToSeconds (normalizeTimestamp s)` terminates with a defined
(never-`NaN`), finite, non-negative number of seconds; and whenever `s`
strips to a string with no digit at all (in particular to the empty
string), the result is exactly `0`. -/
theorem c1_timestamp_pipeline_safe (s : String) :
    (∃ q : ℚ, timestampToSeconds (normalizeTimestamp s) = some q ∧ 0 ≤ q) ∧
    ((stripNoise (jsTrim s.data)).all (fun c => !isDigitC c) = true →
      timestampToSeconds (normalizeTimestamp s) = some 0) := by
  have hts : timestampToSeconds (normalizeTimestamp s) =
      timestampToSecondsL (normalizeTimestampL s.data) := rfl
  constructor
  · obtain ⟨a, b, c, d, heq⟩ := normalizeTimestampL_shape s.data
    refine ⟨(a : ℚ) * 3600 + (b : ℚ) * 60 +
      ((c : ℚ) + (d : ℚ) / (10 : ℚ) ^ (padStart 3 '0' (decNat d)).length), ?_, ?_⟩
    · rw [hts, heq, timestampToSecondsL_fmtHMS]
    · positivity
  · intro hnd
    rw [List.all_eq_true] at hnd
    have heq : normalizeTimestampL s.data = fmtHMS 0 0 0 0 := by
      unfold normalizeTimestampL
      by_cases hemp : (s.data).isEmpty = true
      · rw [if_pos hemp]
        decide
      · rw [if_neg hemp]
        apply normalizeFromClean_no_digits
        · intro c hc
          have hp := (List.mem_filter.1 hc).2
          simp only [Bool.or_eq_true, decide_eq_true_eq] at hp
          tauto
        · intro c hc
          have := hnd c hc
          simpa using this
    have hval := timestampToSecondsL_fmtHMS 0 0 0 0
    simp only [Nat.cast_zero] at hval
    rw [hts, heq, hval]
    norm_num

/-- C1 witness: the pipeline at the digit-free input `"::"`. -/
theorem c1_witness : timestampToSeconds (normalizeTimestamp "::") = some 0 :=
  (c1_timestamp_pipeline_safe "::").2 (by decide)

/-! ## Claim C4 -/

theorem dot_not_mem_pad_decNat (k n : ℕ) :
    ('.' : Char) ∉ padStart k '0' (decNat n) := fun hmem =>
  (digit_toNat_facts (pad_decNat_digits k n '.' hmem)).2.1 rfl

/-- C4 counterexample: on input `"100:00:00"` the normaliser emits a
three-digit hour field, so the output does not match the fixed-width
pattern `^\d{2}:\d{2}:\d{2}\.\d{3}$` the claim asserts for every
input. -/
theorem c4_counterexample :
    normalizeTimestamp "100:00:00" = "100:00:00.000" ∧
    isCanonicalTS (normalizeTimestamp "100:00:00").data = false := by
  constructor
  · rfl
  · rfl

/-- C4 amended: `normalizeTimestamp` always produces
`^\d{2,}:\d{2,}:\d{2,}\.\d{3,}$` — three all-digit colon-separated
fields, zero-padded to at least 2/2/2 digits, and an all-digit
millisecond field of at least 3 digits; fields whose value overflows the
width occupy more digits instead of being clipped. -/
theorem c4_amended (s : String) : isLooseTS (normalizeTimestamp s).data = true := by
  obtain ⟨a, b, c, d, heq⟩ := normalizeTimestampL_shape s.data
  have hdata : (normalizeTimestamp s).data = normalizeTimestampL s.data := rfl
  rw [hdata, heq]
  unfold isLooseTS
  rw [splitCh_colon_fmtHMS]
  dsimp only
  rw [splitCh_append _ (dot_not_mem_pad_decNat 2 c)]
  rw [splitCh_of_not_mem (dot_not_mem_pad_decNat 3 d)]
  dsimp only
  simp only [Bool.and_eq_true, decide_eq_true_eq, List.all_eq_true,
    padStart_length, ge_iff_le]
  repeat' apply And.intro
  all_goals
    first
    | exact le_max_left _ _
    | exact fun x hx => pad_decNat_digits _ _ x hx

/-! ## Claim C9 -/

theorem isCanonicalTS_elim {l : List Char} (hs : isCanonicalTS l = true) :
    ∃ a b c d e f g h i : Char,
      l = [a, b, ':', c, d, ':', e, f, '.', g, h, i] ∧
      isDigitC a = true ∧ isDigitC b = true ∧ isDigitC c = true ∧
      isDigitC d = true ∧ isDigitC e = true ∧ isDigitC f = true ∧
      isDigitC g = true ∧ isDigitC h = true ∧ isDigitC i = true := by
  unfold isCanonicalTS at hs
  split at hs
  next a b c1 c d c2 e f dot g h i =>
    simp only [Bool.and_eq_true, decide_eq_true_eq] at hs
    obtain ⟨⟨⟨⟨⟨⟨⟨⟨⟨⟨⟨ha, hb⟩, hc1⟩, hc⟩, hd⟩, hc2⟩, he⟩, hf⟩, hdot⟩, hg⟩, hh⟩, hi⟩ := hs
    subst hc1
    subst hc2
    subst hdot
    exact ⟨a, b, c, d, e, f, g, h, i, rfl, ha, hb, hc, hd, he, hf, hg, hh, hi⟩
  next => exact absurd hs (by simp)

theorem jsTrim_eq_self {l : List Char} (h : ∀ c ∈ l, isWSC c = false) :
    jsTrim l = l := by
  unfold jsTrim
  rw [dropWhile_eq_self_of_all h]
  rw [dropWhile_eq_self_of_all (fun c hc => h c (List.mem_reverse.1 hc))]
  exact List.reverse_reverse l

theorem digitsVal_pair (x y : Char) : digitsVal [x, y] = 10 * dval x + dval y := by
  simp [digitsVal]

theorem digitsVal_triple (x y z : Char) :
    digitsVal [x, y, z] = 100 * dval x + 10 * dval y + dval z := by
  simp [digitsVal]
  ring

theorem normalizeTimestampL_canonical {a b c d e f g h i : Char}
    (ha : isDigitC a = true) (hb : isDigitC b = true) (hc : isDigitC c = true)
    (hd : isDigitC d = true) (he : isDigitC e = true) (hf : isDigitC f = true)
    (hg : isDigitC g = true) (hh : isDigitC h = true) (hi : isDigitC i = true) :
    normalizeTimestampL [a, b, ':', c, d, ':', e, f, '.', g, h, i] =
      [a, b, ':', c, d, ':', e, f, '.', g, h, i] := by
  set l : List Char := [a, b, ':', c, d, ':', e, f, '.', g, h, i] with hldef
  have hmem : ∀ x ∈ l, isDigitC x = true ∨ x = ':' ∨ x = '.' := by
    intro x hx
    simp only [hldef, List.mem_cons, List.not_mem_nil, or_false] at hx
    rcases hx with rfl | rfl | rfl | rfl | rfl | rfl | rfl | rfl | rfl | rfl | rfl | rfl
    · exact Or.inl ha
    · exact Or.inl hb
    · exact Or.inr (Or.inl rfl)
    · exact Or.inl hc
    · exact Or.inl hd
    · exact Or.inr (Or.inl rfl)
    · exact Or.inl he
    · exact Or.inl hf
    · exact Or.inr (Or.inr rfl)
    · exact Or.inl hg
    · exact Or.inl hh
    · exact Or.inl hi
  have hws : ∀ x ∈ l, isWSC x = false := by
    intro x hx
    rcases hmem x hx with h1 | h1 | h1
    · exact (digit_toNat_facts h1).2.2.2.2.2.1
    · rw [h1]
      decide
    · rw [h1]
      decide
  have hfilter : ∀ x ∈ l, (isDigitC x || x = ':' || x = '.') = true := by
    intro x hx
    rcases hmem x hx with h1 | h1 | h1 <;> simp [h1]
  unfold normalizeTimestampL
  rw [if_neg (by simp [hldef] : ¬ l.isEmpty = true)]
  rw [jsTrim_eq_self hws]
  show normalizeFromClean (List.filter _ l) = l
  rw [List.filter_eq_self.2 hfilter]
  have hcontains : listContains ':' l = true := by
    simp only [listContains, List.any_eq_true]
    exact ⟨':', by simp [hldef], by simp⟩
  unfold normalizeFromClean
  rw [if_neg (by simp [hcontains] :
    ¬ (!(listContains ':' l) && !l.isEmpty &&
        l.all (fun c => isDigitC c || c = '.')) = true)]
  have hsplit : splitCh ':' l = [[a, b], [c, d], [e, f, '.', g, h, i]] := by
    have hshape : l = [a, b] ++ ':' :: ([c, d] ++ ':' :: [e, f, '.', g, h, i]) := rfl
    rw [hshape]
    rw [splitCh_append _ (by
      intro hx
      simp only [List.mem_cons, List.not_mem_nil, or_false] at hx
      rcases hx with rfl | rfl
      · exact (digit_toNat_facts ha).1 rfl
      · exact (digit_toNat_facts hb).1 rfl)]
    rw [splitCh_append _ (by
      intro hx
      simp only [List.mem_cons, List.not_mem_nil, or_false] at hx
      rcases hx with rfl | rfl
      · exact (digit_toNat_facts hc).1 rfl
      · exact (digit_toNat_facts hd).1 rfl)]
    rw [splitCh_of_not_mem (by
      intro hx
      simp only [List.mem_cons, List.not_mem_nil, or_false] at hx
      rcases hx with rfl | rfl | heq | rfl | rfl | rfl
      · exact (digit_toNat_facts he).1 rfl
      · exact (digit_toNat_facts hf).1 rfl
      · exact absurd heq (by decide)
      · exact (digit_toNat_facts hg).1 rfl
      · exact (digit_toNat_facts hh).1 rfl
      · exact (digit_toNat_facts hi).1 rfl)]
  rw [hsplit]
  have hsecsplit : splitCh '.' [e, f, '.', g, h, i] = [[e, f], [g, h, i]] := by
    have hshape : [e, f, '.', g, h, i] = [e, f] ++ '.' :: [g, h, i] := rfl
    rw [hshape]
    rw [splitCh_append _ (by
      intro hx
      simp only [List.mem_cons, List.not_mem_nil, or_false] at hx
      rcases hx with rfl | rfl
      · exact (digit_toNat_facts he).2.1 rfl
      · exact (digit_toNat_facts hf).2.1 rfl)]
    rw [splitCh_of_not_mem (by
      intro hx
      simp only [List.mem_cons, List.not_mem_nil, or_false] at hx
      rcases hx with rfl | rfl | rfl
      · exact (digit_toNat_facts hg).2.1 rfl
      · exact (digit_toNat_facts hh).2.1 rfl
      · exact (digit_toNat_facts hi).2.1 rfl)]
  have hdig2 : ∀ (x y : Char), isDigitC x = true → isDigitC y = true →
      ∀ z ∈ [x, y], isDigitC z = true := by
    intro x y hx hy z hz
    simp only [List.mem_cons, List.not_mem_nil, or_false] at hz
    rcases hz with rfl | rfl
    · exact hx
    · exact hy
  have hdig3 : ∀ z ∈ [g, h, i], isDigitC z = true := by
    intro z hz
    simp only [List.mem_cons, List.not_mem_nil, or_false] at hz
    rcases hz with rfl | rfl | rfl
    · exact hg
    · exact hh
    · exact hi
  simp only [partsToHMS]
  rw [hsecsplit]
  simp only [List.headD_cons]
  rw [parseIntJS_digits (by simp) (hdig2 a b ha hb)]
  rw [parseIntJS_digits (by simp) (hdig2 c d hc hd)]
  rw [parseIntJS_digits (by simp) (hdig2 e f he hf)]
  simp only [msFromSecParts]
  rw [if_neg (by simp : ¬ ([g, h, i] : List Char).isEmpty = true)]
  have htake : ([g, h, i] : List Char).take 3 = [g, h, i] := rfl
  have hpadE : padEnd 3 '0' [g, h, i] = [g, h, i] := by
    unfold padEnd
    simp
  rw [htake, hpadE, parseIntJS_digits (by simp) hdig3]
  simp only [Option.getD_some]
  rw [digitsVal_pair, digitsVal_pair, digitsVal_pair, digitsVal_triple]
  have hva := dval_le_9 ha
  have hvb := dval_le_9 hb
  have hvc := dval_le_9 hc
  have hvd := dval_le_9 hd
  have hve := dval_le_9 he
  have hvf := dval_le_9 hf
  have hvg := dval_le_9 hg
  have hvh := dval_le_9 hh
  have hvi := dval_le_9 hi
  unfold fmtHMS
  rw [intToStr_natCast, intToStr_natCast, intToStr_natCast, intToStr_natCast]
  rw [pad2_decNat (by omega), pad2_decNat (by omega), pad2_decNat (by omega),
    pad3_decNat (by omega)]
  have e1 : (10 * dval a + dval b) / 10 = dval a := by omega
  have e2 : (10 * dval a + dval b) % 10 = dval b := by omega
  have e3 : (10 * dval c + dval d) / 10 = dval c := by omega
  have e4 : (10 * dval c + dval d) % 10 = dval d := by omega
  have e5 : (10 * dval e + dval f) / 10 = dval e := by omega
  have e6 : (10 * dval e + dval f) % 10 = dval f := by omega
  have e7 : (100 * dval g + 10 * dval h + dval i) / 100 = dval g := by omega
  have e8 : (100 * dval g + 10 * dval h + dval i) / 10 % 10 = dval h := by omega
  have e9 : (100 * dval g + 10 * dval h + dval i) % 10 = dval i := by omega
  rw [e1, e2, e3, e4, e5, e6, e7, e8, e9]
  rw [digitChar_dval ha, digitChar_dval hb, digitChar_dval hc, digitChar_dval hd,
    digitChar_dval he, digitChar_dval hf, digitChar_dval hg, digitChar_dval hh,
    digitChar_dval hi]
  rfl

/-- C9: on any string already in the canonical `HH:MM:SS.mmm` form,
`normalizeTimestamp` is the identity, hence idempotent there. -/
theorem c9_normalize_idempotent (s : String) (hs : isCanonicalTS s.data = true) :
    normalizeTimestamp s = s ∧
      normalizeTimestamp (normalizeTimestamp s) = normalizeTimestamp s := by
  obtain ⟨a, b, c, d, e, f, g, h, i, hl, ha, hb, hc, hd, he, hf, hg, hh, hi⟩ :=
    isCanonicalTS_elim hs
  have hmain : normalizeTimestamp s = s := by
    show String.mk (normalizeTimestampL s.data) = s
    rw [hl, normalizeTimestampL_canonical ha hb hc hd he hf hg hh hi, ← hl]
  exact ⟨hmain, by rw [hmain, hmain]⟩

/-- C9 witness: idempotence at the canonical string `"12:34:56.789"`. -/
theorem c9_witness :
    normalizeTimestamp "12:34:56.789" = "12:34:56.789" ∧
      normalizeTimestamp (normalizeTimestamp "12:34:56.789") =
        normalizeTimestamp "12:34:56.789" :=
  c9_normalize_idempotent "12:34:56.789" (by decide)

/-! ## Claim C3 -/

theorem timestampToSecondsNum_default : timestampToSecondsNum "00:00:00.000" = 0 := by
  unfold timestampToSecondsNum timestampToSeconds
  have h1 : ("00:00:00.000").data = fmtHMS 0 0 0 0 := by decide
  have hval := timestampToSecondsL_fmtHMS 0 0 0 0
  simp only [Nat.cast_zero] at hval
  rw [h1, hval]
  norm_num

/-- C3 counterexample: a raw record carrying its timestamps only under
the keys `start`/`end` (modelled `startAlt`/`endAlt`) is mapped to the
`0` fallback, not to the parse of those field values (which is `5`
here), contradicting the claim. -/
theorem c3_counterexample :
    (buildSegment ⟨none, none, some "00:00:05.000", some "00:00:06.000",
      "x", none⟩).start = 0 ∧
    timestampToSecondsNum (normalizeTimestamp "00:00:05.000") = 5 ∧
    (0 : ℚ) ≠ 5 := by
  refine ⟨?_, ?_, by norm_num⟩
  · show timestampToSecondsNum (normalizeTimestampField none) = 0
    exact timestampToSecondsNum_default
  · unfold timestampToSecondsNum timestampToSeconds
    have h1 : (normalizeTimestamp "00:00:05.000").data = fmtHMS 0 0 5 0 := by decide
    have hval := timestampToSecondsL_fmtHMS 0 0 5 0
    simp only [Nat.cast_zero, Nat.cast_ofNat] at hval
    rw [h1, hval]
    have hlen : (padStart 3 '0' (decNat 0)).length = 3 := by decide
    rw [hlen]
    norm_num

/-- C3 amended: the post-processor in `geminiService.ts` honours only the
`startTime`/`endTime` keys.  A record whose timestamps sit under
`start`/`end` (fields `startAlt`/`endAlt`) gets the `0` fallback for both
bounds, and the `start`/`end` fields never influence the result; with
`startTime`/`endTime` present the segment carries their normalize+parse
value. -/
theorem c3_amended (sAlt eAlt : Option String) (st et txt : String)
    (ws : Option (List RawWord)) :
    (buildSegment ⟨none, none, sAlt, eAlt, txt, ws⟩).start = 0 ∧
    (buildSegment ⟨none, none, sAlt, eAlt, txt, ws⟩).stop = 0 ∧
    buildSegment ⟨some st, some et, sAlt, eAlt, txt, ws⟩ =
      buildSegment ⟨some st, some et, none, none, txt, ws⟩ ∧
    (buildSegment ⟨some st, some et, sAlt, eAlt, txt, ws⟩).start =
      timestampToSecondsNum (normalizeTimestamp st) ∧
    (buildSegment ⟨some st, some et, sAlt, eAlt, txt, ws⟩).stop =
      timestampToSecondsNum (normalizeTimestamp et) :=
  ⟨timestampToSecondsNum_default, timestampToSecondsNum_default, rfl, rfl, rfl⟩

/-! ## Claim C5 -/

theorem leStart_trans {α : Type} (f : α → ℚ) (a b c : α)
    (h1 : leStart f a b = true) (h2 : leStart f b c = true) :
    leStart f a c = true := by
  simp only [leStart, decide_eq_true_eq] at *
  exact le_trans h1 h2

theorem leStart_total {α : Type} (f : α → ℚ) (a b : α) :
    (leStart f a b || leStart f b a) = true := by
  simp only [leStart, Bool.or_eq_true, decide_eq_true_eq]
  exact le_total (f a) (f b)

/-- C5: post-processing always returns a segment list sorted ascending by
`start`, and inside every produced segment the `words` list is sorted
ascending by word `start`, whatever the input order. -/
theorem c5_sorted (raws : List RawSegment) :
    List.Pairwise (fun x y => x.start ≤ y.start) (buildSegments raws) ∧
    ∀ seg ∈ buildSegments raws,
      List.Pairwise (fun x y => x.start ≤ y.start) seg.words := by
  constructor
  · have hs := List.sorted_mergeSort (leStart_trans SubtitleSegment.start)
      (leStart_total SubtitleSegment.start) (raws.map buildSegment)
    exact hs.imp (by simp [leStart])
  · intro seg hseg
    rw [buildSegments, List.mem_mergeSort, List.mem_map] at hseg
    obtain ⟨r, _, rfl⟩ := hseg
    unfold buildSegment
    match r.words with
    | some ws =>
      have hs := List.sorted_mergeSort (leStart_trans SubtitleWord.start)
        (leStart_total SubtitleWord.start) (ws.map buildWord)
      exact hs.imp (by simp [leStart])
    | none => exact List.Pairwise.nil

/-! ## Claims C7 and C10: generateLRC -/

theorem lrcBody_cons_cons (dur : ℚ) (a b : SubtitleSegment)
    (rest : List SubtitleSegment) :
    lrcBody dur (a :: b :: rest) =
      lrcLyricLine a ::
        ((if b.start - a.stop > 4 then [lrcClearLine (a.stop + 1)] else []) ++
          lrcBody dur (b :: rest)) := rfl

theorem lrcBody_single (dur : ℚ) (a : SubtitleSegment) :
    lrcBody dur [a] =
      lrcLyricLine a ::
        (if dur > 0 ∧ a.stop + 4 ≤ dur then [lrcClearLine (a.stop + 4)] else []) := by
  show lrcLyricLine a :: (_ ++ lrcBody dur []) = _
  rw [show lrcBody dur [] = [] from rfl, List.append_nil]

theorem getLast?_append_of_ne_nil {α : Type} (l1 : List α) {l2 : List α}
    (h : l2 ≠ []) : (l1 ++ l2).getLast? = l2.getLast? := by
  rw [List.getLast?_append]
  match l2, h with
  | x :: xs, _ =>
    rw [List.getLast?_eq_getLast (x :: xs) (by simp)]
    rfl

theorem lrcBody_ne_nil (dur : ℚ) {segs : List SubtitleSegment}
    (h : segs ≠ []) : lrcBody dur segs ≠ [] := by
  match segs, h with
  | a :: rest, _ =>
    show lrcLyricLine a :: _ ≠ []
    simp

/-- Decomposition of the body around any adjacent pair: between the two
lyric lines sits exactly the optional clear marker, present iff the gap
exceeds 4 seconds, timestamped `end + 1`. -/
theorem lrcBody_decomp (dur : ℚ) :
    ∀ (segs : List SubtitleSegment) (i : ℕ) (hi : i + 1 < segs.length),
      ∃ pre post, lrcBody dur segs =
        pre ++ lrcLyricLine segs[i] ::
          ((if segs[i + 1].start - segs[i].stop > 4
            then [lrcClearLine (segs[i].stop + 1)] else []) ++
            lrcLyricLine segs[i + 1] :: post) := by
  intro segs
  induction segs with
  | nil => intro i hi; simp at hi
  | cons a rest ih =>
    intro i hi
    match rest, hi with
    | b :: rest2, hi =>
      match i with
      | 0 =>
        have hhead : ∃ t, lrcBody dur (b :: rest2) = lrcLyricLine b :: t :=
          ⟨_, rfl⟩
        obtain ⟨t, ht⟩ := hhead
        refine ⟨[], t, ?_⟩
        rw [lrcBody_cons_cons, ht]
        simp only [List.nil_append, List.getElem_cons_zero,
          List.getElem_cons_succ]
      | i + 1 =>
        have hi2 : i + 1 < (b :: rest2).length := by
          simpa using Nat.lt_of_succ_lt_succ hi
        obtain ⟨pre, post, hp⟩ := ih i hi2
        refine ⟨lrcLyricLine a ::
          ((if b.start - a.stop > 4 then [lrcClearLine (a.stop + 1)] else []) ++
            pre), post, ?_⟩
        rw [lrcBody_cons_cons, hp]
        simp only [List.getElem_cons_succ, List.cons_append, List.append_assoc]

/-- C7: `generateLRC` places a timestamp-only clear line between the
lyric lines of adjacent segments exactly when the gap
`next.start - prev.end` exceeds 4.0 seconds; for a gap of at most 4.0
seconds the next lyric line follows immediately. -/
theorem c7_lrc_gap_marker (segs : List SubtitleSegment)
    (metadata : LRCMetadata) (audioDuration : ℚ) (i : ℕ)
    (hi : i + 1 < segs.length) :
    ∃ pre post,
      generateLRCLines segs metadata audioDuration =
        pre ++ lrcLyricLine segs[i] ::
          ((if segs[i + 1].start - segs[i].stop > 4
            then [lrcClearLine (segs[i].stop + 1)] else []) ++
            lrcLyricLine segs[i + 1] :: post) := by
  obtain ⟨pre, post, hp⟩ := lrcBody_decomp audioDuration segs i hi
  exact ⟨lrcHeaders metadata ++ pre, post, by
    rw [generateLRCLines, hp, List.append_assoc]⟩

/-- C7 witness: two segments with gap `8 > 4` produce a clear line at
`end + 1`; with gap `3 ≤ 4` they do not. -/
theorem c7_witness :
    (∃ pre post,
      generateLRCLines [⟨0, 1, "a", []⟩, ⟨9, 10, "b", []⟩] {} 0 =
        pre ++ lrcLyricLine ⟨0, 1, "a", []⟩ ::
          ([lrcClearLine 2] ++ lrcLyricLine ⟨9, 10, "b", []⟩ :: post)) ∧
    (∃ pre post,
      generateLRCLines [⟨0, 1, "a", []⟩, ⟨4, 10, "b", []⟩] {} 0 =
        pre ++ lrcLyricLine ⟨0, 1, "a", []⟩ ::
          ([] ++ lrcLyricLine ⟨4, 10, "b", []⟩ :: post)) := by
  constructor
  · obtain ⟨pre, post, hp⟩ := c7_lrc_gap_marker
      [⟨0, 1, "a", []⟩, ⟨9, 10, "b", []⟩] {} 0 0 (by norm_num)
    refine ⟨pre, post, ?_⟩
    rw [hp]
    norm_num
  · obtain ⟨pre, post, hp⟩ := c7_lrc_gap_marker
      [⟨0, 1, "a", []⟩, ⟨4, 10, "b", []⟩] {} 0 0 (by norm_num)
    refine ⟨pre, post, ?_⟩
    rw [hp]
    norm_num

theorem lrcBody_getLast (dur : ℚ) :
    ∀ (segs : List SubtitleSegment) (hne : segs ≠ []),
      (lrcBody dur segs).getLast? =
        if dur > 0 ∧ (segs.getLast hne).stop + 4 ≤ dur
        then some (lrcClearLine ((segs.getLast hne).stop + 4))
        else some (lrcLyricLine (segs.getLast hne)) := by
  intro segs
  induction segs with
  | nil => intro hne; exact absurd rfl hne
  | cons a rest ih =>
    intro hne
    match rest with
    | [] =>
      rw [lrcBody_single]
      by_cases hcond : dur > 0 ∧ a.stop + 4 ≤ dur
      · rw [if_pos hcond]
        simp only [List.getLast_singleton, if_pos hcond]
        rfl
      · rw [if_neg hcond]
        simp only [List.getLast_singleton, if_neg hcond]
        rfl
    | b :: rest2 =>
      rw [lrcBody_cons_cons]
      have hbody := lrcBody_ne_nil dur (List.cons_ne_nil b rest2)
      have hlast : (a :: b :: rest2).getLast hne = (b :: rest2).getLast
          (List.cons_ne_nil b rest2) := by
        rw [List.getLast_cons]
      rw [hlast, ← ih (List.cons_ne_nil b rest2)]
      rw [show lrcLyricLine a :: (_ ++ lrcBody dur (b :: rest2)) =
        (lrcLyricLine a ::
          (if b.start - a.stop > 4 then [lrcClearLine (a.stop + 1)] else [])) ++
          lrcBody dur (b :: rest2) from by simp]
      exact getLast?_append_of_ne_nil _ hbody

/-- C10: every intermediate clear marker is stamped `prev.end + 1.0`;
and the final emitted line is a trailing clear marker at
`last.end + 4.0` precisely when `audioDuration > 0` and
`last.end + 4.0 ≤ audioDuration` (so never with the default duration
`0`), otherwise the final line is the last lyric line itself. -/
theorem c10_lrc_clear_timestamps (segs : List SubtitleSegment)
    (metadata : LRCMetadata) (audioDuration : ℚ) :
    (∀ i (hi : i + 1 < segs.length),
      segs[i + 1].start - segs[i].stop > 4 →
      ∃ pre post,
        generateLRCLines segs metadata audioDuration =
          pre ++ lrcLyricLine segs[i] :: lrcClearLine (segs[i].stop + 1) ::
            lrcLyricLine segs[i + 1] :: post) ∧
    (∀ hne : segs ≠ [],
      (generateLRCLines segs metadata audioDuration).getLast? =
        if audioDuration > 0 ∧ (segs.getLast hne).stop + 4 ≤ audioDuration
        then some (lrcClearLine ((segs.getLast hne).stop + 4))
        else some (lrcLyricLine (segs.getLast hne))) := by
  constructor
  · intro i hi hgap
    obtain ⟨pre, post, hp⟩ := lrcBody_decomp audioDuration segs i hi
    rw [if_pos hgap] at hp
    exact ⟨lrcHeaders metadata ++ pre, post, by
      rw [generateLRCLines, hp, List.append_assoc]
      rfl⟩
  · intro hne
    rw [generateLRCLines,
      getLast?_append_of_ne_nil _ (lrcBody_ne_nil audioDuration hne)]
    exact lrcBody_getLast audioDuration segs hne

/-- C10 witness: concrete checks of both conjuncts — a gap of 8 puts the
clear line at `1 + 1 = 2`, and with duration `20` the trailing marker
sits at `10 + 4 = 14`. -/
theorem c10_witness :
    (∃ pre post,
      generateLRCLines [⟨0, 1, "a", []⟩, ⟨9, 10, "b", []⟩] {} 20 =
        pre ++ lrcLyricLine ⟨0, 1, "a", []⟩ :: lrcClearLine 2 ::
          lrcLyricLine ⟨9, 10, "b", []⟩ :: post) ∧
    (generateLRCLines [⟨0, 1, "a", []⟩, ⟨9, 10, "b", []⟩] {} 20).getLast? =
      some (lrcClearLine 14) := by
  have h := c10_lrc_clear_timestamps [⟨0, 1, "a", []⟩, ⟨9, 10, "b", []⟩] {} 20
  constructor
  · obtain ⟨pre, post, hp⟩ := h.1 0 (by norm_num) (by norm_num)
    refine ⟨pre, post, ?_⟩
    rw [hp]
    norm_num
  · have h2 := h.2 (by simp)
    rw [h2]
    norm_num

/-! ## Claim C2: SRT round-trip -/

theorem formatToSRTTimeL_eq (k : ℕ) :
    formatToSRTTimeL ((k : ℚ) / 1000) =
      pad (k / 1000 / 60 / 60) 2 ++ ':' :: pad (k / 1000 / 60 % 60) 2 ++
        ':' :: pad (k / 1000 % 60) 2 ++ ',' :: pad (k % 1000) 3 := by
  unfold formatToSRTTimeL
  rw [if_neg (not_lt.2 (by positivity : (0 : ℚ) ≤ (k : ℚ) / 1000))]
  have h1 : jsRound ((k : ℚ) / 1000 * 1000) = (k : ℤ) := by
    unfold jsRound
    rw [div_mul_cancel₀ _ (by norm_num : (1000 : ℚ) ≠ 0)]
    rw [show ((k : ℚ)) = ((k : ℤ) : ℚ) by push_cast; ring]
    rw [Int.floor_int_add]
    norm_num
  rw [h1, Int.toNat_natCast]

theorem fmtHMS_pad (a b c d : ℕ) :
    fmtHMS (a : ℤ) (b : ℤ) (c : ℤ) (d : ℤ) =
      pad a 2 ++ ':' :: pad b 2 ++ ':' :: pad c 2 ++ '.' :: pad d 3 := by
  unfold fmtHMS pad
  rw [intToStr_natCast, intToStr_natCast, intToStr_natCast, intToStr_natCast]

theorem replaceFirst_append_comma {xs : List Char} (rest : List Char)
    (h : (',' : Char) ∉ xs) :
    replaceFirst ',' '.' (xs ++ ',' :: rest) = xs ++ '.' :: rest := by
  induction xs with
  | nil =>
    simp only [List.nil_append]
    unfold replaceFirst
    rw [if_pos rfl]
  | cons c cs ih =>
    have hc : ¬ (c = ',') := fun hc => h (hc ▸ List.mem_cons_self c cs)
    simp only [List.cons_append]
    unfold replaceFirst
    rw [if_neg hc]
    rw [ih fun hc2 => h (List.mem_cons_of_mem c hc2)]

theorem normalizeFromClean_fmtHMS (a b c d : ℕ) (hd : d < 1000) :
    normalizeFromClean (fmtHMS (a : ℤ) (b : ℤ) (c : ℤ) (d : ℤ)) =
      fmtHMS (a : ℤ) (b : ℤ) (c : ℤ) (d : ℤ) := by
  have hcontains : listContains ':' (fmtHMS (a : ℤ) b c d) = true := by
    simp only [listContains, List.any_eq_true]
    refine ⟨':', ?_, by simp⟩
    unfold fmtHMS
    simp
  unfold normalizeFromClean
  rw [if_neg (by simp [hcontains] :
    ¬ (!(listContains ':' (fmtHMS (a : ℤ) b c d)) &&
        !(fmtHMS (a : ℤ) b c d).isEmpty &&
        (fmtHMS (a : ℤ) b c d).all (fun x => isDigitC x || x = '.')) = true)]
  dsimp only
  rw [splitCh_colon_fmtHMS]
  simp only [partsToHMS]
  rw [splitCh_append _ (dot_not_mem_pad_decNat 2 c),
    splitCh_of_not_mem (dot_not_mem_pad_decNat 3 d)]
  simp only [List.headD_cons, msFromSecParts]
  rw [parseIntJS_digits (pad_decNat_ne_nil 2 a) (pad_decNat_digits 2 a)]
  rw [parseIntJS_digits (pad_decNat_ne_nil 2 b) (pad_decNat_digits 2 b)]
  rw [parseIntJS_digits (pad_decNat_ne_nil 2 c) (pad_decNat_digits 2 c)]
  rw [if_neg (by simp [pad_decNat_ne_nil 3 d] :
    ¬ (padStart 3 '0' (decNat d)).isEmpty = true)]
  have hlen : (padStart 3 '0' (decNat d)).length = 3 := by
    rw [padStart_length]
    have := decNat_length_le 3 d (by norm_num) (by omega)
    omega
  rw [List.take_of_length_le (le_of_eq hlen)]
  have hpadE : padEnd 3 '0' (padStart 3 '0' (decNat d)) =
      padStart 3 '0' (decNat d) := by
    unfold padEnd
    rw [hlen]
    simp
  rw [hpadE]
  rw [parseIntJS_digits (pad_decNat_ne_nil 3 d) (pad_decNat_digits 3 d)]
  simp only [Option.getD_some]
  rw [digitsVal_pad_decNat, digitsVal_pad_decNat, digitsVal_pad_decNat,
    digitsVal_pad_decNat]

theorem roundtrip_v2_core (k : ℕ) :
    timestampToSeconds (normalizeTimestampV2 (formatToSRTTime ((k : ℚ) / 1000))) =
      some ((k : ℚ) / 1000) := by
  have hts : timestampToSeconds (normalizeTimestampV2 (formatToSRTTime ((k : ℚ) / 1000))) =
      timestampToSecondsL (normalizeTimestampV2L (formatToSRTTimeL ((k : ℚ) / 1000))) := rfl
  rw [hts, formatToSRTTimeL_eq]
  set h := k / 1000 / 60 / 60 with hh
  set m := k / 1000 / 60 % 60 with hm
  set s := k / 1000 % 60 with hs
  set ms := k % 1000 with hms
  have hms1000 : ms < 1000 := by omega
  have hcommaList : pad h 2 ++ ':' :: pad m 2 ++ ':' :: pad s 2 ++ ',' :: pad ms 3 =
      (pad h 2 ++ ':' :: pad m 2 ++ ':' :: pad s 2) ++ ',' :: pad ms 3 := by
    simp [List.append_assoc]
  have hprefixNoComma : (',' : Char) ∉ pad h 2 ++ ':' :: pad m 2 ++ ':' :: pad s 2 := by
    intro hmem
    simp only [List.cons_append, List.append_assoc, List.mem_append,
      List.mem_cons] at hmem
    rcases hmem with h1 | h1 | h1 | h1 | h1
    · exact (digit_toNat_facts (pad_decNat_digits 2 h ',' h1)).2.2.1 rfl
    · exact absurd h1 (by decide)
    · exact (digit_toNat_facts (pad_decNat_digits 2 m ',' h1)).2.2.1 rfl
    · exact absurd h1 (by decide)
    · exact (digit_toNat_facts (pad_decNat_digits 2 s ',' h1)).2.2.1 rfl
  have hallNotWS : ∀ x ∈ pad h 2 ++ ':' :: pad m 2 ++ ':' :: pad s 2 ++
      ',' :: pad ms 3, isWSC x = false := by
    intro x hx
    simp only [List.cons_append, List.append_assoc, List.mem_append,
      List.mem_cons] at hx
    rcases hx with h1 | h1 | h1 | h1 | h1 | h1 | h1
    · exact (digit_toNat_facts (pad_decNat_digits 2 h x h1)).2.2.2.2.2.1
    · rw [h1]; decide
    · exact (digit_toNat_facts (pad_decNat_digits 2 m x h1)).2.2.2.2.2.1
    · rw [h1]; decide
    · exact (digit_toNat_facts (pad_decNat_digits 2 s x h1)).2.2.2.2.2.1
    · rw [h1]; decide
    · exact (digit_toNat_facts (pad_decNat_digits 3 ms x h1)).2.2.2.2.2.1
  have hne : ¬ (pad h 2 ++ ':' :: pad m 2 ++ ':' :: pad s 2 ++
      ',' :: pad ms 3).isEmpty = true := by
    simp [List.isEmpty_iff, pad, pad_decNat_ne_nil]
  unfold normalizeTimestampV2L
  rw [if_neg hne]
  rw [jsTrim_eq_self hallNotWS]
  rw [hcommaList, replaceFirst_append_comma _ hprefixNoComma]
  have hdotForm : (pad h 2 ++ ':' :: pad m 2 ++ ':' :: pad s 2) ++ '.' :: pad ms 3 =
      fmtHMS (h : ℤ) (m : ℤ) (s : ℤ) (ms : ℤ) := by
    rw [fmtHMS_pad]
  rw [hdotForm]
  have hfilter : stripNoise (fmtHMS (h : ℤ) m s ms) = fmtHMS (h : ℤ) m s ms := by
    apply List.filter_eq_self.2
    intro x hx
    unfold fmtHMS at hx
    rw [intToStr_natCast, intToStr_natCast, intToStr_natCast, intToStr_natCast] at hx
    simp only [List.cons_append, List.append_assoc, List.mem_append,
      List.mem_cons] at hx
    rcases hx with h1 | h1 | h1 | h1 | h1 | h1 | h1
    · simp [pad_decNat_digits 2 h x h1]
    · rw [h1]; decide
    · simp [pad_decNat_digits 2 m x h1]
    · rw [h1]; decide
    · simp [pad_decNat_digits 2 s x h1]
    · rw [h1]; decide
    · simp [pad_decNat_digits 3 ms x h1]
  show timestampToSecondsL (normalizeFromClean (stripNoise (fmtHMS (h : ℤ) m s ms))) = _
  rw [hfilter, normalizeFromClean_fmtHMS h m s ms hms1000]
  rw [timestampToSecondsL_fmtHMS]
  have hlen : (padStart 3 '0' (decNat ms)).length = 3 := by
    rw [padStart_length]
    have := decNat_length_le 3 ms (by norm_num) (by omega)
    omega
  rw [hlen]
  congr 1
  have d1 := Nat.div_add_mod k 1000
  have d2 := Nat.div_add_mod (k / 1000) 60
  have d3 := Nat.div_add_mod (k / 1000 / 60) 60
  have hnat : 3600000 * h + 60000 * m + 1000 * s + ms = k := by omega
  have hq : ((3600000 * h + 60000 * m + 1000 * s + ms : ℕ) : ℚ) = (k : ℚ) := by
    exact_mod_cast congrArg (fun n : ℕ => (n : ℚ)) hnat
  push_cast at hq
  rw [show ((10 : ℚ) ^ 3) = 1000 from by norm_num]
  field_simp
  linarith

/-- C2 counterexample: with the `normalizeTimestamp` of
`geminiService.ts` (which strips the comma rather than treating it as a
decimal point) the SRT text for one second, `00:00:01,000`, re-parses to
1000 seconds, so the formatter/parser round-trip of the claim fails even
on whole-second segments. -/
theorem c2_counterexample :
    formatToSRTTime 1 = "00:00:01,000" ∧
    timestampToSeconds (normalizeTimestamp "00:00:01,000") = some 1000 ∧
    ((1000 : ℚ)) ≠ 1 := by
  refine ⟨?_, ?_, by norm_num⟩
  · show String.mk (formatToSRTTimeL 1) = _
    have h1 : formatToSRTTimeL 1 = formatToSRTTimeL ((1000 : ℕ) / 1000 : ℚ) := by
      norm_num
    rw [h1, formatToSRTTimeL_eq]
    decide
  · have h1 : (normalizeTimestamp "00:00:01,000").data = fmtHMS 0 0 1000 0 := by
      decide
    show timestampToSecondsL (normalizeTimestamp "00:00:01,000").data = _
    rw [h1]
    have hval := timestampToSecondsL_fmtHMS 0 0 1000 0
    simp only [Nat.cast_zero, Nat.cast_ofNat] at hval
    rw [hval]
    have hlen : (padStart 3 '0' (decNat 0)).length = 3 := by decide
    rw [hlen]
    norm_num

/-- C2 amended: for segments whose bounds are exact multiples of one
millisecond, re-parsing the two `HH:MM:SS,mmm` texts that `generateSRT`
embeds (they are `formatToSRTTime seg.start` / `formatToSRTTime
seg.end`) recovers the bounds exactly — provided the `part_001` variant
`normalizeTimestampV2` is used, which replaces the comma millisecond
separator by a decimal point; the `geminiService.ts` variant strips the
comma and breaks the round-trip. -/
theorem c2_srt_roundtrip_v2 (seg : SubtitleSegment) (a b : ℕ)
    (ha : seg.start = (a : ℚ) / 1000) (hb : seg.stop = (b : ℚ) / 1000) :
    timestampToSeconds (normalizeTimestampV2 (formatToSRTTime seg.start)) =
      some seg.start ∧
    timestampToSeconds (normalizeTimestampV2 (formatToSRTTime seg.stop)) =
      some seg.stop := by
  rw [ha, hb]
  exact ⟨roundtrip_v2_core a, roundtrip_v2_core b⟩

/-- C2 witness: the round-trip at the concrete segment `28.106s → 34.510s`
(the spec's own SRT example). -/
theorem c2_witness :
    timestampToSeconds (normalizeTimestampV2
      (formatToSRTTime ((28106 : ℚ) / 1000))) = some ((28106 : ℚ) / 1000) ∧
    timestampToSeconds (normalizeTimestampV2
      (formatToSRTTime ((34510 : ℚ) / 1000))) = some ((34510 : ℚ) / 1000) := by
  have h := c2_srt_roundtrip_v2 ⟨(28106 : ℚ) / 1000, (34510 : ℚ) / 1000, "X", []⟩
    28106 34510 (by simp) (by simp)
  exact h

/-! ## Claim C8: TTML escaping and CJK spacing -/

set_option maxRecDepth 10000 in
/-- C8 (code bug): the source's `hasCJK` comment and the spec both name
Hangul among the suppressed-spacing ranges, but the regex contains no
Hangul block, so a non-final Hangul word receives a trailing space
(`spanContent "안" false = "안 "` — the claim requires no space after
any CJK word); moreover the metadata title is interpolated into the
document unescaped: the raw text `a&b` appears verbatim and no `&amp;`
entity is produced. -/
theorem c8_hangul_and_title_divergence :
    hasCJK "안" = false ∧
    spanContent "안" false = "안 " ∧
    List.IsInfix "a&b".data (generateTTML [] (some "a&b")).data ∧
    ¬ List.IsInfix "&amp;".data (generateTTML [] (some "a&b")).data := by
  refine ⟨by decide, by decide, by decide, by decide⟩

/-! ## Claim C6: truncation repair -/

set_option maxRecDepth 20000 in
/-- C6: on the truncated blob
`{"segments":[{"start":"00:00.000","end":"00:01.000","text":"hi"}`
(missing the closing `]}`), `tryRepairJson` succeeds and returns a
`segments` array holding exactly the one record, with text `"hi"` and
the two given timestamp strings. -/
theorem c6_truncation_repair :
    tryRepairJson "\x7b\"segments\":[\x7b\"start\":\"00:00.000\",\"end\":\"00:01.000\",\"text\":\"hi\"\x7d" =
      Except.ok (JVal.obj [("segments", JVal.arr [JVal.obj
        [("start", JVal.str "00:00.000"), ("end", JVal.str "00:01.000"),
         ("text", JVal.str "hi")]])]) := rfl

end LyricFlow

